import Mathlib

/-!
A verification development for the evredis RESP2 codec and storage core.

The definitions below are shallow embeddings of the Rust sources:
  * `src/codecs/resp2.rs`  (`Value`, `Value::read_from`, `Value::write_to`,
    `Value::decode_from`, `Value::encode_to`),
  * `src/codecs.rs`        (`DecodeError`, `EncodeError`),
  * `src/protocol.rs`      (`Command`, `Response`, `Conditional`, `Synchronicity`),
  * `src/storage.rs`, `src/storage/reader.rs`, `src/storage/writer.rs`
    (`Reader::handle`, `Writer::handle`, `Writer::expire`).

Bytes are `UInt8`; byte buffers are `List UInt8`.  Machine integers of the
program (`i64`, `isize`, `u64`) are modelled as `Nat`/`Int` with explicit
wrap-arounds (`% 2 ^ 64`, two's-complement helpers) at the points where the
Rust release build would wrap.  Rust panics (index out of bounds, capacity
overflow, `unreachable!()`, `Option::expect`) are modelled by explicit
`panics` constructors of the result types.
-/

abbrev Byte := UInt8

abbrev Buf := List Byte

def CR : Byte := 13

def LF : Byte := 10

/-- ASCII bytes of a string literal (all protocol tokens are ASCII). -/
def bs (s : String) : Buf := s.data.map (fun c => UInt8.ofNat c.toNat)

/-- `true` iff the buffer contains neither a carriage return nor a line feed. -/
def noCRLFb (d : Buf) : Bool := d.all (fun c => !(c == CR || c == LF))

/-- Position of the first `\r` or `\n` byte, as in
`buffer.iter().position(|&x| x == b'\r' || x == b'\n')`. -/
def findCRLFpos : Buf → Option Nat
  | [] => none
  | c :: rest =>
    if c = CR ∨ c = LF then some 0
    else (findCRLFpos rest).map (· + 1)

/-- Outcome of the nested `read_simple` helper of `Value::read_from`.
`line pos` means a full line was found: the consumed command is
`buf.take (pos + 2)` and the remaining buffer is `buf.drop (pos + 2)`. -/
inductive SimpleOut where
  | incomplete
  | badByte (b : Byte)
  | line (pos : Nat)
deriving DecidableEq

/-- The `read_simple` helper of `Value::read_from` in `src/codecs/resp2.rs`. -/
def readSimple (buf : Buf) : SimpleOut :=
  match findCRLFpos buf with
  | none => .incomplete
  | some pos =>
    if pos + 1 = buf.length then .incomplete
    else if buf.getD pos 0 = CR then
      (if buf.getD (pos + 1) 0 = LF then .line pos
       else .badByte (buf.getD (pos + 1) 0))
    else .badByte (buf.getD pos 0)

/-- The payload of a line found by `read_simple`: the bytes strictly between
the leading type byte and the terminating `\r\n`
(`&command[1..command.len() - 2]` in the source). -/
def linePayload (buf : Buf) (pos : Nat) : Buf := (buf.drop 1).take (pos - 1)

def digitVal (b : Byte) : Option Nat :=
  if 48 ≤ b.toNat ∧ b.toNat ≤ 57 then some (b.toNat - 48) else none

/-- Accumulating decimal parser over a digit list. -/
def parseDigitsGo (acc : Nat) : Buf → Option Nat
  | [] => some acc
  | b :: rest =>
    match digitVal b with
    | some d => parseDigitsGo (acc * 10 + d) rest
    | none => none

/-- Parse a non-empty all-digit byte string as a natural number. -/
def parseU (l : Buf) : Option Nat :=
  match l with
  | [] => none
  | _ :: _ => parseDigitsGo 0 l

def maxI64 : Nat := 2 ^ 63 - 1

/-- Model of Rust `str::parse::<i64>` (also of `parse::<isize>` on a 64-bit
target): optional sign, at least one digit, rejects values outside
`[-2^63, 2^63 - 1]`. -/
def parseI64 (l : Buf) : Option Int :=
  match l with
  | [] => none
  | c :: rest =>
    if c = 43 then (parseU rest).bind (fun m => if m ≤ maxI64 then some (m : Int) else none)
    else if c = 45 then (parseU rest).bind (fun m => if m ≤ 2 ^ 63 then some (-(m : Int)) else none)
    else (parseU l).bind (fun m => if m ≤ maxI64 then some (m : Int) else none)

def contByte (b : Byte) : Bool := decide (128 ≤ b.toNat ∧ b.toNat ≤ 191)

/-- UTF-8 validity of a byte string, as checked by `std::str::from_utf8`. -/
def utf8Valid : Buf → Bool
  | [] => true
  | b :: r =>
    if b.toNat ≤ 127 then utf8Valid r
    else if 194 ≤ b.toNat ∧ b.toNat ≤ 223 then
      match r with
      | c1 :: r2 => contByte c1 && utf8Valid r2
      | [] => false
    else if b.toNat = 224 then
      match r with
      | c1 :: c2 :: r3 => decide (160 ≤ c1.toNat ∧ c1.toNat ≤ 191) && contByte c2 && utf8Valid r3
      | _ => false
    else if 225 ≤ b.toNat ∧ b.toNat ≤ 236 then
      match r with
      | c1 :: c2 :: r3 => contByte c1 && contByte c2 && utf8Valid r3
      | _ => false
    else if b.toNat = 237 then
      match r with
      | c1 :: c2 :: r3 => decide (128 ≤ c1.toNat ∧ c1.toNat ≤ 159) && contByte c2 && utf8Valid r3
      | _ => false
    else if 238 ≤ b.toNat ∧ b.toNat ≤ 239 then
      match r with
      | c1 :: c2 :: r3 => contByte c1 && contByte c2 && utf8Valid r3
      | _ => false
    else if b.toNat = 240 then
      match r with
      | c1 :: c2 :: c3 :: r4 =>
        decide (144 ≤ c1.toNat ∧ c1.toNat ≤ 191) && contByte c2 && contByte c3 && utf8Valid r4
      | _ => false
    else if 241 ≤ b.toNat ∧ b.toNat ≤ 243 then
      match r with
      | c1 :: c2 :: c3 :: r4 => contByte c1 && contByte c2 && contByte c3 && utf8Valid r4
      | _ => false
    else if b.toNat = 244 then
      match r with
      | c1 :: c2 :: c3 :: r4 =>
        decide (128 ≤ c1.toNat ∧ c1.toNat ≤ 143) && contByte c2 && contByte c3 && utf8Valid r4
      | _ => false
    else false

/-- The `DecodeError` enum of `src/codecs.rs` (error payloads of the
`InvalidString`/`InvalidInteger` variants are dropped). -/
inductive DecodeError where
  | unexpectedByte (b : Byte)
  | unrecognizedCommand
  | unexpectedNumberOfArguments
  | invalidLength
  | invalidDataType
  | invalidString
  | invalidInteger
deriving DecidableEq

/-- The error kind produced by `str::from_utf8` followed by integer parsing:
invalid UTF-8 maps to `InvalidString` (via `from()`), a parse failure on a
valid string maps to `InvalidInteger`. -/
def intErrKind (l : Buf) : DecodeError :=
  if utf8Valid l then .invalidInteger else .invalidString

/-- The RESP2 `Value` enum of `src/codecs/resp2.rs`. -/
inductive Value where
  | simpleString (data : Buf)
  | error (data : Buf)
  | integer (n : Int)
  | bulkString (data : Buf)
  | array (elems : List Value)
  | nil

/-- Fuelled helper for `natToDigits` (structural recursion on the fuel keeps
the function kernel-reducible). -/
def natToDigitsF : Nat → Nat → Buf
  | 0, _ => []
  | fuel + 1, n =>
    if n < 10 then [UInt8.ofNat (48 + n)]
    else natToDigitsF fuel (n / 10) ++ [UInt8.ofNat (48 + n % 10)]

/-- Decimal digits of a natural number, most significant first
(model of Rust's `Display` for unsigned integers). -/
def natToDigits (n : Nat) : Buf := natToDigitsF (n + 1) n

theorem natToDigitsF_congr : ∀ (fuel fuel' n : Nat), n < fuel → n < fuel' →
    natToDigitsF fuel n = natToDigitsF fuel' n := by
  intro fuel
  induction fuel with
  | zero => intro fuel' n h; omega
  | succ f ih =>
    intro fuel' n h h'
    match fuel', h' with
    | f' + 1, _ =>
      simp only [natToDigitsF]
      by_cases h10 : n < 10
      · simp [h10]
      · simp only [h10, if_false]
        have hd : n / 10 < n := Nat.div_lt_self (by omega) (by omega)
        rw [ih f' (n / 10) (by omega) (by omega)]

/-- The recursion equation for `natToDigits`. -/
theorem natToDigits_eq (n : Nat) :
    natToDigits n = if n < 10 then [UInt8.ofNat (48 + n)]
      else natToDigits (n / 10) ++ [UInt8.ofNat (48 + n % 10)] := by
  show natToDigitsF (n + 1) n = _
  simp only [natToDigitsF]
  by_cases h10 : n < 10
  · simp [h10]
  · simp only [h10, if_false]
    have hd : n / 10 < n := Nat.div_lt_self (by omega) (by omega)
    rw [natToDigitsF_congr n (n / 10 + 1) (n / 10) (by omega) (by omega)]
    rfl

/-- Model of Rust `i64::to_string`. -/
def intToBytes (n : Int) : Buf :=
  if n < 0 then 45 :: natToDigits (-n).toNat else natToDigits n.toNat

mutual
/-- The byte encoding produced by `Value::write_to` (the pure
"bytes appended" view; `writeTo` below is the faithful `Result`-returning
form and is proved equal to appending `enc`). -/
def enc : Value → Buf
  | .simpleString d => 43 :: (d ++ [CR, LF])
  | .error d => 45 :: (d ++ [CR, LF])
  | .integer n => 58 :: (intToBytes n ++ [CR, LF])
  | .bulkString d => 36 :: (natToDigits d.length ++ [CR, LF] ++ d ++ [CR, LF])
  | .array es => 42 :: (natToDigits es.length ++ [CR, LF] ++ encList es)
  | .nil => [36, 45, 49, CR, LF]
def encList : List Value → Buf
  | [] => []
  | v :: vs => enc v ++ encList vs
end

mutual
/-- Well-formedness of a value with respect to the RESP2 grammar: simple
string and error payloads contain no `\r`/`\n` (their wire form would
otherwise not be a frame), integers fit in `i64`, and lengths are
representable without tripping the decoder's `isize` arithmetic. -/
def WFv : Value → Bool
  | .simpleString d => noCRLFb d
  | .error d => noCRLFb d
  | .integer n => decide (-(2 ^ 63 : Int) ≤ n) && decide (n < 2 ^ 63)
  | .bulkString d => decide (d.length + 3 ≤ 2 ^ 63)
  | .array es => decide (es.length + 1 ≤ 2 ^ 63) && WFl es
  | .nil => true
def WFl : List Value → Bool
  | [] => true
  | v :: vs => WFv v && WFl vs
end

/-- `true` for values that are not top-level bulk strings (see the streaming
theorem: a top-level bulk string loses its header on an incomplete read). -/
def topSafe : Value → Bool
  | .bulkString _ => false
  | _ => true

/-- Result of `Value::read_from` on a buffer `buf`.  The `Nat` arguments are
counts of bytes consumed from the front of `buf`: the buffer left behind is
`buf.drop k`.  `incomplete k` is `Ok(None)` with `k` bytes (erroneously, when
`k ≠ 0`) consumed; `value v k` is `Ok(Some(v))`; `panics` marks a Rust panic
(capacity overflow or out-of-bounds index). -/
inductive ReadOut where
  | panics
  | error (e : DecodeError) (dropped : Nat)
  | incomplete (dropped : Nat)
  | value (v : Value) (consumed : Nat)

/-- Result of the element loop inside the array branch of `read_from`.
On any inner failure the loop `mem::swap`s the original buffer back, so the
failure outcome carries no buffer information. -/
inductive ElemsOut where
  | panics
  | failed (e : DecodeError)
  | bail
  | done (vs : List Value) (consumed : Nat)

/-- Two's-complement wrap of an integer into the `i64`/`isize` range
(Rust release-build overflow semantics of `len + 2`). -/
def i64wrap (x : Int) : Int := (x + 2 ^ 63) % 2 ^ 64 - 2 ^ 63

theorem prodLexOfLe {a b x y : Nat} (hab : a ≤ b) (hxy : x < y) :
    Prod.Lex (· < ·) (· < ·) (a, x) (b, y) := by
  rcases Nat.lt_or_ge a b with h | h
  · exact Prod.Lex.left _ _ h
  · have hba : a = b := Nat.le_antisymm hab h
    subst hba
    exact Prod.Lex.right _ hxy

mutual
/-- `Value::read_from` of `src/codecs/resp2.rs`.  Branches mirror the source:
`+`/`-`/`:` lines, `*` arrays (with `mem::swap` restoration on inner failure,
and a capacity-overflow panic for negative lengths other than `-1`), `$` bulk
strings (where an incomplete payload leaves the header consumed, and a length
whose `len + 2` wraps leads to an out-of-bounds index panic). -/
def readFrom (buf : Buf) : ReadOut :=
  match hb : buf with
  | [] => .incomplete 0
  | b :: _ =>
    if b = 43 ∨ b = 45 then
      match readSimple buf with
      | .incomplete => .incomplete 0
      | .badByte c => .error (.unexpectedByte c) 0
      | .line pos =>
        if b = 43 then .value (.simpleString (linePayload buf pos)) (pos + 2)
        else .value (.error (linePayload buf pos)) (pos + 2)
    else if b = 58 then
      match readSimple buf with
      | .incomplete => .incomplete 0
      | .badByte c => .error (.unexpectedByte c) 0
      | .line pos =>
        match parseI64 (linePayload buf pos) with
        | some n => .value (.integer n) (pos + 2)
        | none => .error (intErrKind (linePayload buf pos)) (pos + 2)
    else if b = 42 then
      match readSimple buf with
      | .incomplete => .incomplete 0
      | .badByte c => .error (.unexpectedByte c) 0
      | .line pos =>
        match parseI64 (linePayload buf pos) with
        | none => .error (intErrKind (linePayload buf pos)) 0
        | some len =>
          if len = -1 then .value .nil (pos + 2)
          else if len < 0 then .panics
          else
            match readElems len.toNat (buf.drop (pos + 2)) with
            | .panics => .panics
            | .failed e => .error e 0
            | .bail => .incomplete 0
            | .done vs c => .value (.array vs) (pos + 2 + c)
    else if b = 36 then
      match readSimple buf with
      | .incomplete => .incomplete 0
      | .badByte c => .error (.unexpectedByte c) 0
      | .line pos =>
        match parseI64 (linePayload buf pos) with
        | none => .error (intErrKind (linePayload buf pos)) 0
        | some len =>
          if len = -1 then .value .nil (pos + 2)
          else if len < 0 then .error .invalidLength 0
          else
            if ((buf.drop (pos + 2)).length : Int) < i64wrap (len + 2) then .incomplete (pos + 2)
            else if hix : len.toNat < (buf.drop (pos + 2)).length then
              if (buf.drop (pos + 2)).getD len.toNat 0 = CR then
                if len.toNat + 1 < (buf.drop (pos + 2)).length then
                  if (buf.drop (pos + 2)).getD (len.toNat + 1) 0 = LF then
                    .value (.bulkString ((buf.drop (pos + 2)).take len.toNat))
                      (pos + 2 + (len.toNat + 2))
                  else .error (.unexpectedByte ((buf.drop (pos + 2)).getD (len.toNat + 1) 0)) (pos + 2)
                else .panics
              else .error (.unexpectedByte ((buf.drop (pos + 2)).getD len.toNat 0)) (pos + 2)
            else .panics
    else .error (.unexpectedByte b) 0
termination_by (buf.length, 0)
decreasing_by
  apply Prod.Lex.left
  subst hb
  simp only [List.length_cons, List.length_drop]
  omega
/-- The `for _ in 0..len` element loop of the array branch of `read_from`. -/
def readElems (n : Nat) (buf : Buf) : ElemsOut :=
  match n with
  | 0 => .done [] 0
  | n' + 1 =>
    match readFrom buf with
    | .panics => .panics
    | .error e _ => .failed e
    | .incomplete _ => .bail
    | .value v c =>
      match readElems n' (buf.drop c) with
      | .panics => .panics
      | .failed e => .failed e
      | .bail => .bail
      | .done vs c2 => .done (v :: vs) (c + c2)
termination_by (buf.length, n + 1)
decreasing_by
  · apply Prod.Lex.right
    omega
  · apply prodLexOfLe
    · simp only [List.length_drop]
      omega
    · omega
end

/-- The commands constructed by `Value::decode_from` in `src/codecs/resp2.rs`
(this revision of the codec builds `Command::Set(key, value)` with two fields
and knows only the five commands below). -/
inductive CodecCommand where
  | ping (msg : Option Buf)
  | get (key : Buf)
  | set (key value : Buf)
  | del (keys : List Buf)
  | existsKeys (keys : List Buf)
deriving DecidableEq

/-- The `elems.into_iter().map(...).collect::<Result<Vec<_>, _>>()` step of
`decode_from`: every element must be a bulk string, otherwise
`InvalidDataType`. -/
def collectBulks : List Value → Option (List Buf)
  | [] => some []
  | .bulkString d :: rest => (collectBulks rest).map (d :: ·)
  | _ :: _ => none

/-- The command-name dispatch of `decode_from` on `elems[0]` and `&elems[1..]`:
only the exact lowercase and exact uppercase spellings are matched. -/
def mapCommand (name : Buf) (tail : List Buf) : Except DecodeError CodecCommand :=
  if name = bs ("ping") ∨ name = bs ("PING") then
    match tail with
    | [] => .ok (.ping none)
    | [m] => .ok (.ping (some m))
    | _ => .error .unexpectedNumberOfArguments
  else if name = bs ("get") ∨ name = bs ("GET") then
    match tail with
    | [k] => .ok (.get k)
    | _ => .error .unexpectedNumberOfArguments
  else if name = bs ("set") ∨ name = bs ("SET") then
    match tail with
    | [k, v] => .ok (.set k v)
    | _ => .error .unexpectedNumberOfArguments
  else if name = bs ("del") ∨ name = bs ("DEL") then
    match tail with
    | [] => .error .unexpectedNumberOfArguments
    | _ => .ok (.del tail)
  else if name = bs ("exists") ∨ name = bs ("EXISTS") then
    match tail with
    | [] => .error .unexpectedNumberOfArguments
    | _ => .ok (.existsKeys tail)
  else .error .unrecognizedCommand

/-- Result of `decode_from`; `Nat` arguments count bytes consumed from the
front of the input buffer.  `panics` marks the `elems[0]` index panic on an
empty top-level array (and panics propagated from `read_from`). -/
inductive DecodeOut where
  | panics
  | error (e : DecodeError) (dropped : Nat)
  | incomplete (dropped : Nat)
  | command (c : CodecCommand) (consumed : Nat)

/-- `ProtocolCodec::decode_from` for the RESP2 `Value` codec. -/
def decodeFrom (buf : Buf) : DecodeOut :=
  match readFrom buf with
  | .panics => .panics
  | .error e k => .error e k
  | .incomplete k => .incomplete k
  | .value v c =>
    match v with
    | .array elems =>
      match collectBulks elems with
      | none => .error .invalidDataType c
      | some [] => .panics
      | some (name :: tail) =>
        match mapCommand name tail with
        | .ok cmd => .command cmd c
        | .error e => .error e c
    | _ => .error .invalidDataType c

/-- The `EncodeError` enum of `src/codecs.rs`: it has a single `Dummy`
variant which no code path ever constructs. -/
inductive EncodeError where
  | dummy
deriving DecidableEq

mutual
/-- `Value::write_to` of `src/codecs/resp2.rs`, with the source's
`Result<(), EncodeError>` plumbing (the buffer is passed and returned
explicitly). -/
def writeTo : Value → Buf → Except EncodeError Buf
  | .nil, buf => .ok (buf ++ [36, 45, 49, CR, LF])
  | .simpleString d, buf => .ok (buf ++ (43 :: (d ++ [CR, LF])))
  | .error d, buf => .ok (buf ++ (45 :: (d ++ [CR, LF])))
  | .integer n, buf => .ok (buf ++ (58 :: (intToBytes n ++ [CR, LF])))
  | .bulkString d, buf =>
    .ok (buf ++ (36 :: (natToDigits d.length ++ [CR, LF] ++ d ++ [CR, LF])))
  | .array es, buf => writeList es (buf ++ (42 :: (natToDigits es.length ++ [CR, LF])))
/-- The `for element in elements` loop of `write_to`, propagating errors
through `?`. -/
def writeList : List Value → Buf → Except EncodeError Buf
  | [], buf => .ok buf
  | v :: vs, buf =>
    match writeTo v buf with
    | .ok buf2 => writeList vs buf2
    | .error e => .error e
end

/-- The `Error` enum of `src/protocol.rs`. -/
inductive ProtocolError where
  | wrongType
deriving DecidableEq

/-- The `Response` enum of `src/protocol.rs`. -/
inductive Response where
  | ok
  | error (e : ProtocolError)
  | nil
  | pong
  | integer (n : Int)
  | bulk (data : Buf)
deriving DecidableEq

/-- The `Response → Value` translation inside `encode_to`. -/
def responseValue : Response → Value
  | .nil => .nil
  | .pong => .simpleString (bs ("PONG"))
  | .ok => .simpleString (bs ("OK"))
  | .integer n => .integer n
  | .bulk d => .bulkString d
  | .error .wrongType =>
    .error (bs ("WRONGTYPE Operation against a key holding the wrong kind of value"))

/-- `ProtocolCodec::encode_to` for the RESP2 `Value` codec. -/
def encodeTo (r : Response) (buf : Buf) : Except EncodeError Buf :=
  match writeTo (responseValue r) buf with
  | .ok buf2 => .ok buf2
  | .error e => .error e

/-- Responses whose integer payloads fit in `i64` and whose bulk payloads are
representable (every response actually produced by the program satisfies
this). -/
def respWF : Response → Bool
  | .integer n => decide (-(2 ^ 63 : Int) ≤ n) && decide (n < 2 ^ 63)
  | .bulk d => decide (d.length + 3 ≤ 2 ^ 63)
  | _ => true

/-- The storage `Value` enum of `src/storage.rs` (the `HashSet`, `BTreeSet`
and `HashMap` containers are modelled as lists; no command in this
development inspects their contents). -/
inductive StorageValue where
  | string (data : Buf)
  | list (items : List Buf)
  | set (items : List Buf)
  | orderedSet (items : List Buf)
  | hash (entries : List (Buf × Buf))
deriving DecidableEq

/-- Modelled from the spec: per-item metadata (`operation_id`, optional
absolute expiration instant).  `src/storage/writer.rs` stores and reads
`Metadata` values but their declaration is not under `src/`; the fields are
the ones named in the spec (§3) and used by the writer.  Instants are
abstract clock ticks (`Nat`). -/
structure Metadata where
  operation_id : Nat
  expiration : Option Nat
deriving DecidableEq

/-- Modelled from the spec: an `Item` is the `(Value, Metadata)` pair the map
stores per key (spec §3); `src/storage/writer.rs` constructs
`Item { value, meta }` but the declaration is not under `src/`. -/
structure Item where
  value : StorageValue
  meta : Metadata
deriving DecidableEq

/-- The store: an association list modelling the `evmap` map from keys to
(single-valued) entries.  The writer only ever uses `update` (replace),
`empty` (remove) and `purge`, so every key holds at most one value. -/
abbrev Store := List (Buf × Item)

def storeGet : Store → Buf → Option Item
  | [], _ => none
  | (k', it) :: rest, k => if k' = k then some it else storeGet rest k

def storeRemove : Store → Buf → Store
  | [], _ => []
  | (k', it) :: rest, k => if k' = k then storeRemove rest k else (k', it) :: storeRemove rest k

def storeInsert (st : Store) (k : Buf) (it : Item) : Store := (k, it) :: storeRemove st k

def storeContains (st : Store) (k : Buf) : Bool := (storeGet st k).isSome

/-- The `StorageError` enum of `src/storage.rs`. -/
inductive StorageError where
  | noWriteAccess
  | noReadAccess
deriving DecidableEq

/-- `Synchronicity` of `src/protocol.rs`. -/
inductive Synchronicity where
  | sync
  | async
deriving DecidableEq

/-- `Conditional` of `src/protocol.rs`. -/
inductive Conditional where
  | always
  | ifExists
  | ifNotExists
deriving DecidableEq

/-- `Conditional::when(exists, op)` evaluated to whether the closure runs
(the closure's effects are performed by the caller when this is `true`). -/
def Conditional.passes : Conditional → Bool → Bool
  | .always, _ => true
  | .ifExists, ex => ex
  | .ifNotExists, ex => !ex

/-- The storage-side `Command` enum: the variants of `src/protocol.rs`
(with the four-field `Set`) together with the `Expire`/`Persist` variants
that `src/storage/writer.rs` handles (their declaration is from a revision
not under `src/`; fields are as used by the writer and named in the spec).
TTL durations are abstract ticks (`Nat`). -/
inductive Command where
  | ping (msg : Option Buf)
  | get (key : Buf)
  | set (key value : Buf) (ttl : Option Nat) (cond : Conditional)
  | del (keys : List Buf)
  | existsKeys (keys : List Buf)
  | expire (key : Buf) (ttl : Nat)
  | persist (key : Buf)
  | flushAll (s : Synchronicity)
  | flushDB (s : Synchronicity)
deriving DecidableEq

/-- `Command::writes` of `src/protocol.rs`: everything except
`Ping`/`Get`/`Exists` writes. -/
def Command.writes : Command → Bool
  | .ping _ => false
  | .get _ => false
  | .existsKeys _ => false
  | _ => true

/-- State owned by the `Writer` actor of `src/storage/writer.rs`: the map and
the `u64` operation counter (kept as a `Nat` that every increment reduces
modulo `2 ^ 64`, the release-build wrap of `self.operation_id += 1`). -/
structure WriterState where
  store : Store
  operation_id : Nat
deriving DecidableEq

/-- Everything `Writer::handle` produces: the returned `Result`, the state
after the message, whether `refresh()` ran (a snapshot was published), and
the expiration callbacks scheduled via `ctx.run_later`, as
`(key, fire instant, captured operation_id)` triples. -/
structure WriterOut where
  result : Except StorageError Response
  state : WriterState
  refreshed : Bool
  scheduled : List (Buf × Nat × Nat)

/-- The `DEL` loop of `Writer::handle`: `contains_key` consults the map as of
the last `refresh()` (the `evmap` write handle reads the published side), so
presence is evaluated against the store at message entry for every key; the
`empty(key)` calls are buffered and applied at the final `refresh()`.
Returns the count and the emptied keys in order. -/
def delLoop (readview : Store) (keys : List Buf) : Nat × List Buf :=
  keys.foldl
    (fun acc k => if storeContains readview k then (acc.1 + 1, acc.2 ++ [k]) else acc)
    (0, [])

/-- Two's-complement reading of a `Nat` as an `i64` (for the `updated: i64`
counter of the `DEL` loop). -/
def i64ofNat (n : Nat) : Int :=
  if n % 2 ^ 64 < 2 ^ 63 then ((n % 2 ^ 64 : Nat) : Int)
  else ((n % 2 ^ 64 : Nat) : Int) - 2 ^ 64

/-- `Writer::handle` of `src/storage/writer.rs` at clock reading `now`.
All reads inside one message see the entry store (`evmap` buffers writes
until `refresh()`); the final store is the entry store with the buffered
writes applied.  Non-write commands take the
`Err(StorageError::NoReadAccess)?` early return, which skips `refresh()`
(the counter was already incremented).  The `debug_assert!` and the
unreachable `unimplemented!()` arm of release builds are not modelled. -/
def writerHandle (now : Nat) (cmd : Command) (s : WriterState) : WriterOut :=
  let opId := (s.operation_id + 1) % 2 ^ 64
  match cmd with
  | .set key value ttl cond =>
    if cond.passes (storeContains s.store key) then
      { result := .ok .ok
        state :=
          { store := storeInsert s.store key
              ⟨.string value, ⟨opId, ttl.map (fun t => now + t)⟩⟩
            operation_id := opId }
        refreshed := true
        scheduled := match ttl with | some t => [(key, now + t, opId)] | none => [] }
    else
      { result := .ok .nil, state := { store := s.store, operation_id := opId }
        refreshed := true, scheduled := [] }
  | .del keys =>
    { result := .ok (.integer (i64ofNat (delLoop s.store keys).1))
      state :=
        { store := (delLoop s.store keys).2.foldl storeRemove s.store
          operation_id := opId }
      refreshed := true
      scheduled := [] }
  | .expire key ttl =>
    match storeGet s.store key with
    | some it =>
      { result := .ok (.integer 1)
        state :=
          { store := storeInsert s.store key ⟨it.value, ⟨opId, some (now + ttl)⟩⟩
            operation_id := opId }
        refreshed := true
        scheduled := [(key, now + ttl, opId)] }
    | none =>
      { result := .ok (.integer 0), state := { store := s.store, operation_id := opId }
        refreshed := true, scheduled := [] }
  | .persist key =>
    match storeGet s.store key with
    | some it =>
      { result := .ok (.integer 1)
        state :=
          { store := storeInsert s.store key ⟨it.value, ⟨opId, none⟩⟩
            operation_id := opId }
        refreshed := true
        scheduled := [] }
    | none =>
      { result := .ok (.integer 0), state := { store := s.store, operation_id := opId }
        refreshed := true, scheduled := [] }
  | .flushAll _ =>
    { result := .ok .ok, state := { store := [], operation_id := opId }
      refreshed := true, scheduled := [] }
  | .flushDB _ =>
    { result := .ok .ok, state := { store := [], operation_id := opId }
      refreshed := true, scheduled := [] }
  | _ =>
    { result := .error .noReadAccess, state := { store := s.store, operation_id := opId }
      refreshed := false, scheduled := [] }

/-- The deferred closure scheduled by `Writer::expire`: when it fires for
`(key, operation_id)`, it removes the key and refreshes only if the item
currently stored still carries exactly that `operation_id`
(`get_and(&key, get_metadata).map(|meta| meta.operation_id == operation_id)
.unwrap_or(false)`).  Returns the new state and whether a refresh was
published. -/
def expireCallback (key : Buf) (operation_id : Nat) (s : WriterState) :
    WriterState × Bool :=
  match storeGet s.store key with
  | some it =>
    if it.meta.operation_id = operation_id then
      ({ s with store := storeRemove s.store key }, true)
    else (s, false)
  | none => (s, false)

/-- A computation that either produces a value or panics the process. -/
inductive PanicOr (α : Type) where
  | panics
  | ok (a : α)

/-- `Reader::handle` of `src/storage/reader.rs`.  `store = none` models a
reader whose subscription has not completed: the handler's
`.expect("Reader not yet ready to respond")` panics.  The `Get` arm matches
on the stored value only (no metadata is consulted; `reader.rs` is typed
over the pre-metadata store, and under the writer-published `Item` store the
match applies to `item.value`).  Write commands hit the
`other if other.writes()` guard; `Exists` falls through to
`unreachable!()`, a panic. -/
def readerHandle (store : Option Store) (cmd : Command) :
    PanicOr (Except StorageError Response) :=
  match store with
  | none => .panics
  | some snapshot =>
    match cmd with
    | .ping none => .ok (.ok .pong)
    | .ping (some m) => .ok (.ok (.bulk m))
    | .get key =>
      .ok (.ok (match storeGet snapshot key with
        | none => .nil
        | some it =>
          match it.value with
          | .string d => .bulk d
          | _ => .error .wrongType))
    | c => if c.writes then .ok (.error .noWriteAccess) else .panics

def stepW (s : WriterState) (p : Nat × Command) : WriterState := (writerHandle p.1 p.2 s).state

/-- The writer state after handling a list of `(now, command)` messages,
starting from a freshly constructed writer (`operation_id = 0`, empty map). -/
def runW (ops : List (Nat × Command)) : WriterState := ops.foldl stepW ⟨[], 0⟩

/-- The `operation_id` assigned to the last handled message of `ops` (the
counter is bumped to its new value by every `handle` call). -/
def opIdAfter (ops : List (Nat × Command)) : Nat := (runW ops).operation_id

/-- `s` is an initial segment of `l`. -/
def Starts (s l : Buf) : Prop := ∃ t, s ++ t = l

/-- Did the buffer's first line form a complete bulk-string header
`$<len>\r\n` with `len ≥ 0`?  Exactly in this situation `read_from` returns
`None` with the header consumed instead of restoring the buffer. -/
def bulkHeaderComplete (s : Buf) : Bool :=
  match s with
  | b :: _ =>
    if b = 36 then
      match readSimple s with
      | .line pos =>
        match parseI64 (linePayload s pos) with
        | some len => decide (0 ≤ len)
        | none => false
      | _ => false
    else false
  | [] => false

/-- Length of the first line (`pos + 2`) when `read_simple` finds one. -/
def hdrLen (s : Buf) : Nat :=
  match readSimple s with
  | .line pos => pos + 2
  | _ => 0

/-- Byte-by-byte streaming: deliver the bytes one at a time; after each byte
run the decoder once on the accumulated buffer; record each completed frame.
Decode errors and panics abort the run. -/
def feedGo (acc : List Value) (buf : Buf) : Buf → Except Unit (List Value × Buf)
  | [] => .ok (acc, buf)
  | b :: more =>
    match readFrom (buf ++ [b]) with
    | .value v c => feedGo (acc ++ [v]) ((buf ++ [b]).drop c) more
    | .incomplete k => feedGo acc ((buf ++ [b]).drop k) more
    | .error _ _ => .error ()
    | .panics => .error ()

def feed (bytes : Buf) : Except Unit (List Value × Buf) := feedGo [] [] bytes

/-- Formalizes the amended claim C2: `GET` answers from the snapshot by the
stored value alone — absent keys give `Nil`, a `String` gives `Bulk`
regardless of any expiration metadata, any other variant gives
`Error(WrongType)`. -/
def getAmendedSpec (snapshot : Store) (key : Buf) : Response :=
  match storeGet snapshot key with
  | none => .nil
  | some it =>
    match it.value with
    | .string d => .bulk d
    | _ => .error .wrongType

/-- Rewrite every item's metadata (used to state that reads ignore
metadata). -/
def setMetaAll (st : Store) (f : Metadata → Metadata) : Store :=
  st.map (fun p => (p.1, ⟨p.2.value, f p.2.meta⟩))

/-- Formalizes claim C5 as stated: keys are processed in order and every key
present at the moment it is processed is removed (immediately) and counted.
Returns the final store and the count. -/
def delClaimLoop (st : Store) : List Buf → Store × Nat
  | [] => (st, 0)
  | k :: rest =>
    if storeContains st k then
      ((delClaimLoop (storeRemove st k) rest).1, (delClaimLoop (storeRemove st k) rest).2 + 1)
    else delClaimLoop st rest

/-- ASCII uppercasing of one byte. -/
def asciiUpper (b : Byte) : Byte :=
  if 97 ≤ b.toNat ∧ b.toNat ≤ 122 then UInt8.ofNat (b.toNat - 32) else b

/-- Formalizes the amended claim C3's case rule: a command token is matched
only as its all-lowercase or all-uppercase ASCII spelling. -/
def matchName (name : Buf) (lower : String) : Bool :=
  decide (name = bs lower) || decide (name = (bs lower).map asciiUpper)

/-- Formalizes the amended claim C3's mapping table: `PING` (0 or 1 args),
`GET key`, `SET key value` (no options), `DEL`/`EXISTS` (at least one key);
every other first element — including `EXPIRE`, `PERSIST`, `FLUSHALL`,
`FLUSHDB` and any mixed-case spelling — is `UnrecognizedCommand`; a matched
name with wrong arity is `UnexpectedNumberOfArguments`. -/
def commandSpecAmended (name : Buf) (tail : List Buf) : Except DecodeError CodecCommand :=
  if matchName name ("ping") then
    match tail with
    | [] => .ok (.ping none)
    | [m] => .ok (.ping (some m))
    | _ => .error .unexpectedNumberOfArguments
  else if matchName name ("get") then
    match tail with
    | [k] => .ok (.get k)
    | _ => .error .unexpectedNumberOfArguments
  else if matchName name ("set") then
    match tail with
    | [k, v] => .ok (.set k v)
    | _ => .error .unexpectedNumberOfArguments
  else if matchName name ("del") then
    match tail with
    | [] => .error .unexpectedNumberOfArguments
    | _ => .ok (.del tail)
  else if matchName name ("exists") then
    match tail with
    | [] => .error .unexpectedNumberOfArguments
    | _ => .ok (.existsKeys tail)
  else .error .unrecognizedCommand

theorem takeLen (l1 l2 : Buf) : (l1 ++ l2).take l1.length = l1 := by
  induction l1 with
  | nil => rfl
  | cons x xs ih => simp [ih]

theorem dropLen (l1 l2 : Buf) : (l1 ++ l2).drop l1.length = l2 := by
  induction l1 with
  | nil => rfl
  | cons x xs ih => simp [ih]

theorem getD_append_len (l1 l2 : Buf) (a : Byte) :
    (l1 ++ a :: l2).getD l1.length 0 = a := by
  induction l1 with
  | nil => rfl
  | cons x xs ih => simpa using ih

theorem getD_append_len1 (l1 l2 : Buf) (a b : Byte) :
    (l1 ++ a :: b :: l2).getD (l1.length + 1) 0 = b := by
  have h := getD_append_len (l1 ++ [a]) l2 b
  simpa [List.append_assoc, List.length_append] using h

theorem starts_len {s l : Buf} (h : Starts s l) : s.length ≤ l.length := by
  obtain ⟨t, ht⟩ := h
  rw [← ht]
  simp

theorem starts_of_len_eq {s l : Buf} (h : Starts s l) (hl : s.length = l.length) : s = l := by
  obtain ⟨t, ht⟩ := h
  have hlen : s.length + t.length = l.length := by rw [← ht]; simp
  have ht0 : t = [] := by
    cases t with
    | nil => rfl
    | cons x xs => simp at hlen; omega
  subst ht0
  simpa using ht

theorem starts_app (l1 l2 : Buf) : Starts l1 (l1 ++ l2) := ⟨l2, rfl⟩

theorem starts_trans {a b c : Buf} (h1 : Starts a b) (h2 : Starts b c) : Starts a c := by
  obtain ⟨t1, ht1⟩ := h1
  obtain ⟨t2, ht2⟩ := h2
  exact ⟨t1 ++ t2, by rw [← List.append_assoc, ht1, ht2]⟩

theorem starts_cons {s : Buf} {a : Byte} {l : Buf} (h : Starts s (a :: l)) :
    s = [] ∨ ∃ s', s = a :: s' ∧ Starts s' l := by
  obtain ⟨t, ht⟩ := h
  cases s with
  | nil => exact Or.inl rfl
  | cons x xs =>
    refine Or.inr ⟨xs, ?_, ⟨t, ?_⟩⟩
    · have hx : x = a := by simpa using congrArg (fun u => u.headD 0) ht
      rw [hx]
    · simpa using congrArg List.tail ht

theorem starts_nil_right {s : Buf} (h : Starts s []) : s = [] := by
  obtain ⟨t, ht⟩ := h
  cases s with
  | nil => rfl
  | cons x xs => simp at ht

theorem starts_split {s l1 l2 : Buf} (h : Starts s (l1 ++ l2)) :
    Starts s l1 ∨ ∃ u, Starts u l2 ∧ s = l1 ++ u := by
  induction l1 generalizing s with
  | nil => exact Or.inr ⟨s, h, rfl⟩
  | cons a l1' ih =>
    rcases starts_cons h with rfl | ⟨s', rfl, hs'⟩
    · exact Or.inl ⟨a :: l1', rfl⟩
    · rcases ih hs' with h1 | ⟨u, hu, rfl⟩
      · obtain ⟨t, ht⟩ := h1
        exact Or.inl ⟨t, by simp [ht]⟩
      · exact Or.inr ⟨u, hu, rfl⟩

theorem starts_two {s : Buf} {a b : Byte} (h : Starts s [a, b]) :
    s = [] ∨ s = [a] ∨ s = [a, b] := by
  rcases starts_cons h with rfl | ⟨s', rfl, hs'⟩
  · exact Or.inl rfl
  · rcases starts_cons hs' with rfl | ⟨s'', rfl, hs''⟩
    · exact Or.inr (Or.inl rfl)
    · rw [starts_nil_right hs'']
      exact Or.inr (Or.inr rfl)

theorem noCRLF_starts {d u : Buf} (hd : noCRLFb d = true) (h : Starts u d) :
    noCRLFb u = true := by
  obtain ⟨t, ht⟩ := h
  rw [← ht] at hd
  simp only [noCRLFb, List.all_append, Bool.and_eq_true] at hd
  exact hd.1

theorem findCRLF_none {d : Buf} (h : noCRLFb d = true) : findCRLFpos d = none := by
  induction d with
  | nil => rfl
  | cons c rest ih =>
    simp only [noCRLFb, List.all_cons, Bool.and_eq_true] at h
    have hc : ¬(c = CR ∨ c = LF) := by
      rcases h with ⟨h1, _⟩
      simp only [Bool.not_eq_true', Bool.or_eq_false_iff, beq_eq_false_iff_ne] at h1
      tauto
    have hrest : noCRLFb rest = true := h.2
    simp [findCRLFpos, hc, ih hrest]

theorem findCRLF_pre {d : Buf} (h : noCRLFb d = true) {c : Byte} (hc : c = CR ∨ c = LF)
    (tail : Buf) : findCRLFpos (d ++ c :: tail) = some d.length := by
  induction d with
  | nil => simp [findCRLFpos, hc]
  | cons x xs ih =>
    simp only [noCRLFb, List.all_cons, Bool.and_eq_true] at h
    have hx : ¬(x = CR ∨ x = LF) := by
      rcases h with ⟨h1, _⟩
      simp only [Bool.not_eq_true', Bool.or_eq_false_iff, beq_eq_false_iff_ne] at h1
      tauto
    simp [findCRLFpos, hx, ih h.2]

theorem readSimple_line {pre : Buf} (h : noCRLFb pre = true) (tail : Buf) :
    readSimple (pre ++ CR :: LF :: tail) = .line pre.length := by
  unfold readSimple
  rw [findCRLF_pre h (Or.inl rfl) (LF :: tail)]
  dsimp only
  have hne : ¬(pre.length + 1 = (pre ++ CR :: LF :: tail).length) := by
    simp only [List.length_append, List.length_cons]
    omega
  have hcr : (pre ++ CR :: LF :: tail).getD pre.length 0 = CR :=
    getD_append_len pre (LF :: tail) CR
  have hlf : (pre ++ CR :: LF :: tail).getD (pre.length + 1) 0 = LF :=
    getD_append_len1 pre tail CR LF
  rw [if_neg hne, if_pos hcr, if_pos hlf]

theorem readSimple_inc_noCRLF {buf : Buf} (h : noCRLFb buf = true) :
    readSimple buf = .incomplete := by
  unfold readSimple
  rw [findCRLF_none h]

theorem readSimple_inc_midCR {pre : Buf} (h : noCRLFb pre = true) :
    readSimple (pre ++ [CR]) = .incomplete := by
  unfold readSimple
  rw [findCRLF_pre h (Or.inl rfl) []]
  dsimp only
  have hlen : pre.length + 1 = (pre ++ [CR]).length := by simp
  rw [if_pos hlen]

theorem linePayload_app (t : Byte) (d tail : Buf) :
    linePayload (t :: (d ++ tail)) (d.length + 1) = d := by
  simp [linePayload, takeLen]

theorem uint8_toNat_ofNat (n : Nat) : (UInt8.ofNat n).toNat = n % 256 := rfl

theorem natToDigits_ne_nil (n : Nat) : natToDigits n ≠ [] := by
  rw [natToDigits_eq]
  by_cases h : n < 10 <;> simp [h]

theorem natToDigits_digits (n : Nat) :
    ∀ b ∈ natToDigits n, 48 ≤ b.toNat ∧ b.toNat ≤ 57 := by
  induction n using Nat.strong_induction_on with
  | _ n ih =>
    rw [natToDigits_eq]
    by_cases h : n < 10
    · simp only [h, if_true, List.mem_singleton]
      intro b hb
      subst hb
      rw [uint8_toNat_ofNat]
      omega
    · simp only [h, if_false, List.mem_append, List.mem_singleton]
      intro b hb
      rcases hb with hb | hb
      · exact ih (n / 10) (Nat.div_lt_self (by omega) (by omega)) b hb
      · subst hb
        rw [uint8_toNat_ofNat]
        omega

theorem digit_noCRLF {b : Byte} (h : 48 ≤ b.toNat ∧ b.toNat ≤ 57) :
    (!(b == CR || b == LF)) = true := by
  have h13 : b ≠ CR := by
    intro hEq
    subst hEq
    exact absurd h (by decide)
  have h10 : b ≠ LF := by
    intro hEq
    subst hEq
    exact absurd h (by decide)
  simp [h13, h10]

theorem natToDigits_noCRLF (n : Nat) : noCRLFb (natToDigits n) = true := by
  rw [noCRLFb, List.all_eq_true]
  intro b hb
  exact digit_noCRLF (natToDigits_digits n b hb)

theorem intToBytes_noCRLF (n : Int) : noCRLFb (intToBytes n) = true := by
  unfold intToBytes
  by_cases h : n < 0
  · simp only [h, if_true]
    rw [noCRLFb, List.all_eq_true]
    intro b hb
    rcases List.mem_cons.mp hb with hb | hb
    · subst hb
      decide
    · exact digit_noCRLF (natToDigits_digits _ b hb)
  · simp only [h, if_false]
    exact natToDigits_noCRLF _

theorem digitVal_ofNat (m : Nat) (h : m < 10) : digitVal (UInt8.ofNat (48 + m)) = some m := by
  unfold digitVal
  rw [uint8_toNat_ofNat]
  have h1 : (48 + m) % 256 = 48 + m := by omega
  rw [h1]
  rw [if_pos (by omega)]
  congr 1
  omega

theorem parseDigitsGo_append {l1 : Buf} {acc m : Nat} (l2 : Buf)
    (h : parseDigitsGo acc l1 = some m) :
    parseDigitsGo acc (l1 ++ l2) = parseDigitsGo m l2 := by
  induction l1 generalizing acc with
  | nil =>
    simp only [parseDigitsGo] at h
    cases h
    rfl
  | cons b r ih =>
    simp only [parseDigitsGo] at h ⊢
    cases hd : digitVal b with
    | none => rw [hd] at h; exact absurd h (by simp)
    | some d =>
      rw [hd] at h
      exact ih h

theorem parseDigitsGo_natToDigits (n : Nat) :
    ∀ acc, parseDigitsGo acc (natToDigits n) =
      some (acc * 10 ^ (natToDigits n).length + n) := by
  induction n using Nat.strong_induction_on with
  | _ n ih =>
    intro acc
    rw [natToDigits_eq]
    by_cases h : n < 10
    · simp only [h, if_true]
      show (match digitVal (UInt8.ofNat (48 + n)) with
        | some d => parseDigitsGo (acc * 10 + d) []
        | none => none) = _
      rw [digitVal_ofNat n h]
      simp [parseDigitsGo]
    · simp only [h, if_false]
      have hd : n / 10 < n := Nat.div_lt_self (by omega) (by omega)
      have h1 := ih (n / 10) hd acc
      rw [parseDigitsGo_append [UInt8.ofNat (48 + n % 10)] h1]
      show (match digitVal (UInt8.ofNat (48 + n % 10)) with
        | some d => parseDigitsGo ((acc * 10 ^ (natToDigits (n / 10)).length + n / 10) * 10 + d) []
        | none => none) = _
      rw [digitVal_ofNat (n % 10) (by omega)]
      simp only [parseDigitsGo, List.length_append, List.length_cons, List.length_nil]
      congr 1
      rw [pow_succ]
      set A := acc * 10 ^ (natToDigits (n / 10)).length with hA
      have : acc * (10 ^ (natToDigits (n / 10)).length * 10) = A * 10 := by
        rw [hA]; ring
      rw [this]
      omega

theorem parseU_natToDigits (n : Nat) : parseU (natToDigits n) = some n := by
  obtain ⟨b, r, hbr⟩ : ∃ b r, natToDigits n = b :: r := by
    cases h : natToDigits n with
    | nil => exact absurd h (natToDigits_ne_nil n)
    | cons b r => exact ⟨b, r, rfl⟩
  rw [hbr]
  show parseDigitsGo 0 (b :: r) = some n
  rw [← hbr]
  have h := parseDigitsGo_natToDigits n 0
  simpa using h

theorem natToDigits_head (n : Nat) :
    ∃ b r, natToDigits n = b :: r ∧ 48 ≤ b.toNat ∧ b.toNat ≤ 57 := by
  cases h : natToDigits n with
  | nil => exact absurd h (natToDigits_ne_nil n)
  | cons b r =>
    refine ⟨b, r, rfl, natToDigits_digits n b ?_⟩
    rw [h]
    exact List.mem_cons_self b r

theorem parseI64_natToDigits (n : Nat) (h : n ≤ maxI64) :
    parseI64 (natToDigits n) = some (n : Int) := by
  obtain ⟨b, r, hbr, hlo, hhi⟩ := natToDigits_head n
  rw [hbr]
  show parseI64 (b :: r) = _
  have hb43 : ¬(b = 43) := by
    intro hEq; subst hEq; exact absurd hlo (by decide)
  have hb45 : ¬(b = 45) := by
    intro hEq; subst hEq; exact absurd hlo (by decide)
  simp only [parseI64]
  rw [if_neg hb43, if_neg hb45, ← hbr, parseU_natToDigits]
  simp [h]

theorem parseI64_intToBytes (n : Int) (h1 : -(2 ^ 63 : Int) ≤ n) (h2 : n < 2 ^ 63) :
    parseI64 (intToBytes n) = some n := by
  unfold intToBytes
  by_cases hn : n < 0
  · simp only [hn, if_true]
    simp only [parseI64]
    rw [if_neg (by decide), if_pos trivial, parseU_natToDigits]
    have hle : (-n).toNat ≤ 2 ^ 63 := by omega
    dsimp only [Option.bind]
    rw [if_pos hle]
    congr 1
    omega
  · simp only [hn, if_false]
    rw [parseI64_natToDigits n.toNat (by unfold maxI64; omega)]
    congr 1
    omega

mutual
theorem writeTo_eq (v : Value) (buf : Buf) : writeTo v buf = .ok (buf ++ enc v) := by
  cases v with
  | array es =>
    show writeList es (buf ++ (42 :: (natToDigits es.length ++ [CR, LF]))) = _
    rw [writeList_eq es _]
    simp [enc]
  | nil => simp [writeTo, enc]
  | simpleString d => simp [writeTo, enc]
  | error d => simp [writeTo, enc]
  | integer n => simp [writeTo, enc]
  | bulkString d => simp [writeTo, enc]
theorem writeList_eq (vs : List Value) (buf : Buf) :
    writeList vs buf = .ok (buf ++ encList vs) := by
  cases vs with
  | nil => simp [writeList, encList]
  | cons v vs' =>
    show (match writeTo v buf with
      | .ok buf2 => writeList vs' buf2
      | .error e => .error e) = _
    rw [writeTo_eq v buf]
    dsimp only
    rw [writeList_eq vs' (buf ++ enc v)]
    simp [encList]
end

theorem noCRLF_cons {b : Byte} (hb : (!(b == CR || b == LF)) = true) {d : Buf}
    (h : noCRLFb d = true) : noCRLFb (b :: d) = true := by
  simp only [noCRLFb, List.all_cons, Bool.and_eq_true]
  exact ⟨hb, h⟩

theorem WFl_mem {es : List Value} (h : WFl es = true) : ∀ e ∈ es, WFv e = true := by
  induction es with
  | nil => intro e he; simp at he
  | cons x xs ih =>
    simp only [WFl, Bool.and_eq_true] at h
    intro e he
    rcases List.mem_cons.mp he with rfl | he'
    · exact h.1
    · exact ih h.2 e he'

theorem drop_line (t : Byte) (d X : Buf) :
    (t :: (d ++ CR :: LF :: X)).drop (d.length + 3) = X := by
  have hshape : t :: (d ++ CR :: LF :: X) = ((t :: d) ++ [CR, LF]) ++ X := by simp
  have hlen : ((t :: d) ++ [CR, LF]).length = d.length + 3 := by
    simp only [List.length_append, List.length_cons, List.length_nil]
  rw [hshape, ← hlen, dropLen]

theorem i64wrap_small {x : Int} (h0 : 0 ≤ x) (h1 : x < 2 ^ 63) : i64wrap x = x := by
  unfold i64wrap
  rw [Int.emod_eq_of_lt (by omega) (by omega)]
  omega

theorem readElems_encList (es : List Value)
    (hel : ∀ e ∈ es, ∀ rest, readFrom (enc e ++ rest) = .value e (enc e).length) :
    ∀ rest, readElems es.length (encList es ++ rest) = .done es (encList es).length := by
  induction es with
  | nil =>
    intro rest
    simp [encList, readElems]
  | cons e es' ih =>
    intro rest
    have h1 : readFrom (enc e ++ (encList es' ++ rest)) = .value e (enc e).length :=
      hel e (List.mem_cons_self e es') (encList es' ++ rest)
    have hb : encList (e :: es') ++ rest = enc e ++ (encList es' ++ rest) := by
      simp [encList, List.append_assoc]
    show readElems (es'.length + 1) (encList (e :: es') ++ rest) = _
    rw [readElems.eq_def, hb]
    simp only [h1]
    rw [dropLen (enc e) (encList es' ++ rest)]
    rw [ih (fun e' he' => hel e' (List.mem_cons_of_mem e he'))]
    simp [encList]

theorem readFrom_enc (v : Value) (hwf : WFv v = true) (rest : Buf) :
    readFrom (enc v ++ rest) = .value v ((enc v).length) := by
  cases v with
  | simpleString d =>
    have hd : noCRLFb d = true := hwf
    have hpre : noCRLFb (43 :: d) = true := noCRLF_cons (by decide) hd
    have hshape : enc (.simpleString d) ++ rest = 43 :: (d ++ CR :: LF :: rest) := by
      simp [enc]
    have hs := readSimple_line hpre rest
    simp only [List.cons_append, List.length_cons] at hs
    rw [hshape, readFrom.eq_def]
    dsimp only
    rw [if_pos (by decide : (43 : Byte) = 43 ∨ (43 : Byte) = 45)]
    rw [hs]
    dsimp only
    rw [if_pos (rfl : (43 : Byte) = 43)]
    rw [linePayload_app 43 d (CR :: LF :: rest)]
    have hlen : (enc (.simpleString d)).length = d.length + 3 := by simp [enc]
    rw [hlen]
  | error d =>
    have hd : noCRLFb d = true := hwf
    have hpre : noCRLFb (45 :: d) = true := noCRLF_cons (by decide) hd
    have hshape : enc (.error d) ++ rest = 45 :: (d ++ CR :: LF :: rest) := by
      simp [enc]
    have hs := readSimple_line hpre rest
    simp only [List.cons_append, List.length_cons] at hs
    rw [hshape, readFrom.eq_def]
    dsimp only
    rw [if_pos (by decide : (45 : Byte) = 43 ∨ (45 : Byte) = 45)]
    rw [hs]
    dsimp only
    rw [if_neg (by decide : ¬((45 : Byte) = 43))]
    rw [linePayload_app 45 d (CR :: LF :: rest)]
    have hlen : (enc (.error d)).length = d.length + 3 := by simp [enc]
    rw [hlen]
  | integer n =>
    simp only [WFv, Bool.and_eq_true, decide_eq_true_eq] at hwf
    have hd : noCRLFb (intToBytes n) = true := intToBytes_noCRLF n
    have hpre : noCRLFb (58 :: intToBytes n) = true := noCRLF_cons (by decide) hd
    have hshape : enc (.integer n) ++ rest = 58 :: (intToBytes n ++ CR :: LF :: rest) := by
      simp [enc]
    have hs := readSimple_line hpre rest
    simp only [List.cons_append, List.length_cons] at hs
    rw [hshape, readFrom.eq_def]
    dsimp only
    rw [if_neg (by decide : ¬((58 : Byte) = 43 ∨ (58 : Byte) = 45))]
    rw [if_pos (rfl : (58 : Byte) = 58)]
    rw [hs]
    dsimp only
    rw [linePayload_app 58 (intToBytes n) (CR :: LF :: rest)]
    rw [parseI64_intToBytes n hwf.1 hwf.2]
    have hlen : (enc (.integer n)).length = (intToBytes n).length + 3 := by simp [enc]
    rw [hlen]
  | nil =>
    have hshape : enc Value.nil ++ rest = 36 :: 45 :: 49 :: CR :: LF :: rest := by
      simp [enc]
    have hs := @readSimple_line [36, 45, 49] (by decide) rest
    simp only [List.cons_append, List.nil_append, List.length_cons, List.length_nil] at hs
    norm_num at hs
    rw [hshape, readFrom.eq_def]
    dsimp only
    rw [if_neg (by decide : ¬((36 : Byte) = 43 ∨ (36 : Byte) = 45))]
    rw [if_neg (by decide : ¬((36 : Byte) = 58))]
    rw [if_neg (by decide : ¬((36 : Byte) = 42))]
    rw [if_pos (rfl : (36 : Byte) = 36)]
    rw [hs]
    dsimp only
    have hpl : linePayload (36 :: 45 :: 49 :: CR :: LF :: rest) 3 = [45, 49] := rfl
    rw [hpl]
    have hp : parseI64 [45, 49] = some (-1) := by decide
    rw [hp]
    dsimp only
    rw [if_pos rfl]
    rfl
  | bulkString d =>
    simp only [WFv, decide_eq_true_eq] at hwf
    have hdig : noCRLFb (natToDigits d.length) = true := natToDigits_noCRLF d.length
    have hpre : noCRLFb (36 :: natToDigits d.length) = true := noCRLF_cons (by decide) hdig
    have hshape : enc (.bulkString d) ++ rest =
        36 :: (natToDigits d.length ++ CR :: LF :: (d ++ CR :: LF :: rest)) := by
      simp [enc]
    have hs := readSimple_line hpre (d ++ CR :: LF :: rest)
    simp only [List.cons_append, List.length_cons] at hs
    rw [hshape, readFrom.eq_def]
    dsimp only
    rw [if_neg (by decide : ¬((36 : Byte) = 43 ∨ (36 : Byte) = 45))]
    rw [if_neg (by decide : ¬((36 : Byte) = 58))]
    rw [if_neg (by decide : ¬((36 : Byte) = 42))]
    rw [if_pos (rfl : (36 : Byte) = 36)]
    rw [hs]
    dsimp only
    rw [linePayload_app 36 (natToDigits d.length) (CR :: LF :: (d ++ CR :: LF :: rest))]
    rw [parseI64_natToDigits d.length (by unfold maxI64; omega)]
    dsimp only
    rw [if_neg (by omega : ¬((d.length : Int) = -1))]
    rw [if_neg (by omega : ¬((d.length : Int) < 0))]
    rw [drop_line 36 (natToDigits d.length) (d ++ CR :: LF :: rest)]
    rw [i64wrap_small (by omega) (by omega)]
    have hxlen : (d ++ CR :: LF :: rest).length = d.length + (rest.length + 2) := by
      simp
    rw [if_neg (by rw [hxlen]; push_cast; omega)]
    rw [dif_pos (by simp only [Int.toNat_natCast, hxlen]; omega)]
    have hcr : (d ++ CR :: LF :: rest).getD ((d.length : Int)).toNat 0 = CR := by
      simp only [Int.toNat_natCast]
      exact getD_append_len d (LF :: rest) CR
    rw [if_pos hcr]
    rw [if_pos (by simp only [Int.toNat_natCast, hxlen]; omega)]
    have hlf : (d ++ CR :: LF :: rest).getD (((d.length : Int)).toNat + 1) 0 = LF := by
      simp only [Int.toNat_natCast]
      exact getD_append_len1 d rest CR LF
    rw [if_pos hlf]
    have htake : (d ++ CR :: LF :: rest).take ((d.length : Int)).toNat = d := by
      simp only [Int.toNat_natCast]
      exact takeLen d (CR :: LF :: rest)
    rw [htake]
    have hlen : (enc (Value.bulkString d)).length =
        (natToDigits d.length).length + d.length + 5 := by
      simp only [enc, List.length_cons, List.length_append, List.length_nil]
      omega
    rw [hlen]
    congr 1
    simp only [Int.toNat_natCast]
    omega
  | array es =>
    simp only [WFv, Bool.and_eq_true, decide_eq_true_eq] at hwf
    have hel : ∀ e ∈ es, ∀ r, readFrom (enc e ++ r) = .value e ((enc e).length) :=
      fun e he r => readFrom_enc e (WFl_mem hwf.2 e he) r
    have hdig : noCRLFb (natToDigits es.length) = true := natToDigits_noCRLF es.length
    have hpre : noCRLFb (42 :: natToDigits es.length) = true := noCRLF_cons (by decide) hdig
    have hshape : enc (.array es) ++ rest =
        42 :: (natToDigits es.length ++ CR :: LF :: (encList es ++ rest)) := by
      simp [enc]
    have hs := readSimple_line hpre (encList es ++ rest)
    simp only [List.cons_append, List.length_cons] at hs
    rw [hshape, readFrom.eq_def]
    dsimp only
    rw [if_neg (by decide : ¬((42 : Byte) = 43 ∨ (42 : Byte) = 45))]
    rw [if_neg (by decide : ¬((42 : Byte) = 58))]
    rw [if_pos (rfl : (42 : Byte) = 42)]
    rw [hs]
    dsimp only
    rw [linePayload_app 42 (natToDigits es.length) (CR :: LF :: (encList es ++ rest))]
    rw [parseI64_natToDigits es.length (by unfold maxI64; omega)]
    dsimp only
    rw [if_neg (by omega : ¬((es.length : Int) = -1))]
    rw [if_neg (by omega : ¬((es.length : Int) < 0))]
    rw [drop_line 42 (natToDigits es.length) (encList es ++ rest)]
    have hre : readElems ((es.length : Int)).toNat (encList es ++ rest) =
        .done es ((encList es).length) := by
      simp only [Int.toNat_natCast]
      exact readElems_encList es hel rest
    rw [hre]
    dsimp only
    have hlen : (enc (Value.array es)).length =
        (natToDigits es.length).length + (encList es).length + 3 := by
      simp only [enc, List.length_cons, List.length_append, List.length_nil]
      omega
    rw [hlen]
    congr 1
    omega
termination_by sizeOf v
decreasing_by
  have h1 : sizeOf e < sizeOf es := List.sizeOf_lt_of_mem he
  rename_i hv
  subst hv
  simp only [Value.array.sizeOf_spec]
  omega

theorem readFrom_nil_buf : readFrom [] = .incomplete 0 := by
  rw [readFrom.eq_def]

theorem readElems_succ_nil (n : Nat) : readElems (n + 1) [] = .bail := by
  rw [readElems.eq_def]
  dsimp only
  rw [readFrom_nil_buf]

theorem readFrom_inc_of_rsimple (b : Byte) (u : Buf)
    (hb : b = 43 ∨ b = 45 ∨ b = 58 ∨ b = 42 ∨ b = 36)
    (hrs : readSimple (b :: u) = .incomplete) : readFrom (b :: u) = .incomplete 0 := by
  rw [readFrom.eq_def]
  dsimp only
  rcases hb with rfl | rfl | rfl | rfl | rfl
  · rw [if_pos (by decide : (43 : Byte) = 43 ∨ (43 : Byte) = 45), hrs]
  · rw [if_pos (by decide : (45 : Byte) = 43 ∨ (45 : Byte) = 45), hrs]
  · rw [if_neg (by decide : ¬((58 : Byte) = 43 ∨ (58 : Byte) = 45)),
      if_pos (rfl : (58 : Byte) = 58), hrs]
  · rw [if_neg (by decide : ¬((42 : Byte) = 43 ∨ (42 : Byte) = 45)),
      if_neg (by decide : ¬((42 : Byte) = 58)), if_pos (rfl : (42 : Byte) = 42), hrs]
  · rw [if_neg (by decide : ¬((36 : Byte) = 43 ∨ (36 : Byte) = 45)),
      if_neg (by decide : ¬((36 : Byte) = 58)), if_neg (by decide : ¬((36 : Byte) = 42)),
      if_pos (rfl : (36 : Byte) = 36), hrs]

theorem bulkHC_false_of_head (b : Byte) (u : Buf) (hb : ¬(b = 36)) :
    bulkHeaderComplete (b :: u) = false := by
  unfold bulkHeaderComplete
  dsimp only
  rw [if_neg hb]

theorem bulkHC_false_of_inc (b : Byte) (u : Buf) (hrs : readSimple (b :: u) = .incomplete) :
    bulkHeaderComplete (b :: u) = false := by
  unfold bulkHeaderComplete
  dsimp only
  by_cases hb : b = 36
  · rw [if_pos hb, hrs]
  · rw [if_neg hb]

/-- An incomplete first line always produces `Ok(None)` with nothing
consumed, and is never a complete bulk header. -/
theorem pre_inc_case (b : Byte) (u : Buf)
    (hb : b = 43 ∨ b = 45 ∨ b = 58 ∨ b = 42 ∨ b = 36)
    (hrs : readSimple (b :: u) = .incomplete) :
    readFrom (b :: u) =
      .incomplete (if bulkHeaderComplete (b :: u) = true then hdrLen (b :: u) else 0) := by
  rw [readFrom_inc_of_rsimple b u hb hrs, bulkHC_false_of_inc b u hrs]
  simp

theorem readElems_bail (es : List Value) (hwfl : WFl es = true)
    (hL2 : ∀ e ∈ es, ∀ u, Starts u (enc e) → u ≠ enc e →
      readFrom u = .incomplete (if bulkHeaderComplete u = true then hdrLen u else 0)) :
    ∀ u, Starts u (encList es) → u ≠ encList es → readElems es.length u = .bail := by
  induction es with
  | nil =>
    intro u hu hne
    exact absurd (starts_nil_right hu) hne
  | cons e es' ih =>
    intro u hu hne
    have hwfe : WFv e = true := (WFl_mem hwfl e (List.mem_cons_self e es'))
    have hwfl' : WFl es' = true := by
      simp only [WFl, Bool.and_eq_true] at hwfl
      exact hwfl.2
    have hu' : Starts u (enc e ++ encList es') := by
      simpa [encList] using hu
    show readElems (es'.length + 1) u = .bail
    rcases starts_split hu' with hcase | ⟨w, hw, rfl⟩
    · by_cases hEq : u = enc e
      · subst hEq
        cases es' with
        | nil =>
          exact absurd (by simp [encList]) hne
        | cons f fs =>
          rw [readElems.eq_def]
          dsimp only
          have h1 : readFrom (enc e ++ []) = .value e ((enc e).length) :=
            readFrom_enc e hwfe []
          rw [List.append_nil] at h1
          rw [h1]
          dsimp only
          rw [List.drop_length]
          simp only [List.length_cons]
          rw [readElems_succ_nil fs.length]
      · have h2 := hL2 e (List.mem_cons_self e es') u hcase hEq
        rw [readElems.eq_def]
        dsimp only
        rw [h2]
    · by_cases hweq : w = encList es'
      · subst hweq
        exact absurd (by simp [encList]) hne
      · rw [readElems.eq_def]
        dsimp only
        rw [readFrom_enc e hwfe w]
        dsimp only
        rw [dropLen (enc e) w]
        rw [ih hwfl' (fun e' he' => hL2 e' (List.mem_cons_of_mem e he')) w hw hweq]

theorem readFrom_pre (v : Value) (hwf : WFv v = true) (s : Buf) (hst : Starts s (enc v))
    (hne : s ≠ enc v) :
    readFrom s = .incomplete (if bulkHeaderComplete s = true then hdrLen s else 0) := by
  cases v with
  | simpleString d =>
    have hd : noCRLFb d = true := hwf
    have henc : enc (Value.simpleString d) = 43 :: (d ++ [CR, LF]) := by simp [enc]
    rw [henc] at hst hne
    rcases starts_cons hst with rfl | ⟨s', rfl, hs'⟩
    · rw [readFrom_nil_buf]
      simp [bulkHeaderComplete]
    · rcases starts_split hs' with h1 | ⟨u, hu, rfl⟩
      · have hns' := noCRLF_starts hd h1
        exact pre_inc_case 43 s' (by tauto)
          (readSimple_inc_noCRLF (noCRLF_cons (by decide) hns'))
      · rcases starts_two hu with rfl | rfl | rfl
        · refine pre_inc_case 43 (d ++ []) (by tauto) ?_
          rw [List.append_nil]
          exact readSimple_inc_noCRLF (noCRLF_cons (by decide) hd)
        · refine pre_inc_case 43 (d ++ [CR]) (by tauto) ?_
          have h := readSimple_inc_midCR (noCRLF_cons (by decide) hd (b := 43))
          simpa [List.cons_append] using h
        · exact absurd rfl hne
  | error d =>
    have hd : noCRLFb d = true := hwf
    have henc : enc (Value.error d) = 45 :: (d ++ [CR, LF]) := by simp [enc]
    rw [henc] at hst hne
    rcases starts_cons hst with rfl | ⟨s', rfl, hs'⟩
    · rw [readFrom_nil_buf]
      simp [bulkHeaderComplete]
    · rcases starts_split hs' with h1 | ⟨u, hu, rfl⟩
      · have hns' := noCRLF_starts hd h1
        exact pre_inc_case 45 s' (by tauto)
          (readSimple_inc_noCRLF (noCRLF_cons (by decide) hns'))
      · rcases starts_two hu with rfl | rfl | rfl
        · refine pre_inc_case 45 (d ++ []) (by tauto) ?_
          rw [List.append_nil]
          exact readSimple_inc_noCRLF (noCRLF_cons (by decide) hd)
        · refine pre_inc_case 45 (d ++ [CR]) (by tauto) ?_
          have h := readSimple_inc_midCR (noCRLF_cons (by decide) hd (b := 45))
          simpa [List.cons_append] using h
        · exact absurd rfl hne
  | integer n =>
    have hd : noCRLFb (intToBytes n) = true := intToBytes_noCRLF n
    have henc : enc (Value.integer n) = 58 :: (intToBytes n ++ [CR, LF]) := by simp [enc]
    rw [henc] at hst hne
    rcases starts_cons hst with rfl | ⟨s', rfl, hs'⟩
    · rw [readFrom_nil_buf]
      simp [bulkHeaderComplete]
    · rcases starts_split hs' with h1 | ⟨u, hu, rfl⟩
      · have hns' := noCRLF_starts hd h1
        exact pre_inc_case 58 s' (by tauto)
          (readSimple_inc_noCRLF (noCRLF_cons (by decide) hns'))
      · rcases starts_two hu with rfl | rfl | rfl
        · refine pre_inc_case 58 (intToBytes n ++ []) (by tauto) ?_
          rw [List.append_nil]
          exact readSimple_inc_noCRLF (noCRLF_cons (by decide) hd)
        · refine pre_inc_case 58 (intToBytes n ++ [CR]) (by tauto) ?_
          have h := readSimple_inc_midCR (noCRLF_cons (by decide) hd (b := 58))
          simpa [List.cons_append] using h
        · exact absurd rfl hne
  | nil =>
    have henc : enc Value.nil = [36, 45, 49, CR, LF] := rfl
    rw [henc] at hst hne
    rcases starts_cons hst with rfl | ⟨s1, rfl, h1⟩
    · rw [readFrom_nil_buf]
      simp [bulkHeaderComplete]
    · rcases starts_cons h1 with rfl | ⟨s2, rfl, h2⟩
      · exact pre_inc_case 36 [] (by tauto) (by decide)
      · rcases starts_cons h2 with rfl | ⟨s3, rfl, h3⟩
        · exact pre_inc_case 36 [45] (by tauto) (by decide)
        · rcases starts_cons h3 with rfl | ⟨s4, rfl, h4⟩
          · exact pre_inc_case 36 [45, 49] (by tauto) (by decide)
          · rcases starts_cons h4 with rfl | ⟨s5, rfl, h5⟩
            · exact pre_inc_case 36 [45, 49, CR] (by tauto) (by decide)
            · rw [starts_nil_right h5] at hne ⊢
              exact absurd rfl hne
  | bulkString d =>
    simp only [WFv, decide_eq_true_eq] at hwf
    have hdig : noCRLFb (natToDigits d.length) = true := natToDigits_noCRLF d.length
    have henc : enc (Value.bulkString d) =
        36 :: (natToDigits d.length ++ (CR :: LF :: (d ++ [CR, LF]))) := by simp [enc]
    rw [henc] at hst hne
    rcases starts_cons hst with rfl | ⟨s', rfl, hs'⟩
    · rw [readFrom_nil_buf]
      simp [bulkHeaderComplete]
    · rcases starts_split hs' with h1 | ⟨u, hu, rfl⟩
      · have hns' := noCRLF_starts hdig h1
        exact pre_inc_case 36 s' (by tauto)
          (readSimple_inc_noCRLF (noCRLF_cons (by decide) hns'))
      · rcases starts_cons hu with rfl | ⟨u1, rfl, hu1⟩
        · refine pre_inc_case 36 (natToDigits d.length ++ []) (by tauto) ?_
          rw [List.append_nil]
          exact readSimple_inc_noCRLF (noCRLF_cons (by decide) hdig)
        · rcases starts_cons hu1 with rfl | ⟨u2, rfl, hu2⟩
          · refine pre_inc_case 36 (natToDigits d.length ++ [CR]) (by tauto) ?_
            have h := readSimple_inc_midCR (noCRLF_cons (by decide) hdig (b := 36))
            simpa [List.cons_append] using h
          · by_cases hfull : u2 = d ++ [CR, LF]
            · subst hfull
              exact absurd rfl hne
            · have hu2len : u2.length ≤ d.length + 1 := by
                have hle := starts_len hu2
                simp only [List.length_append, List.length_cons, List.length_nil] at hle
                rcases Nat.lt_or_ge u2.length (d.length + 2) with h | h
                · omega
                · exact absurd (starts_of_len_eq hu2 (by
                    simp only [List.length_append, List.length_cons, List.length_nil]
                    omega)) hfull
              have hpre36 : noCRLFb (36 :: natToDigits d.length) = true :=
                noCRLF_cons (by decide) hdig
              have hsline := readSimple_line hpre36 u2
              simp only [List.cons_append, List.length_cons] at hsline
              have hpay : linePayload (36 :: (natToDigits d.length ++ CR :: LF :: u2))
                  ((natToDigits d.length).length + 1) = natToDigits d.length :=
                linePayload_app 36 (natToDigits d.length) (CR :: LF :: u2)
              have hparse := parseI64_natToDigits d.length (by unfold maxI64; omega)
              rw [readFrom.eq_def]
              dsimp only
              rw [if_neg (by decide : ¬((36 : Byte) = 43 ∨ (36 : Byte) = 45))]
              rw [if_neg (by decide : ¬((36 : Byte) = 58))]
              rw [if_neg (by decide : ¬((36 : Byte) = 42))]
              rw [if_pos (rfl : (36 : Byte) = 36)]
              rw [hsline]
              dsimp only
              rw [hpay, hparse]
              dsimp only
              rw [if_neg (by omega : ¬((d.length : Int) = -1))]
              rw [if_neg (by omega : ¬((d.length : Int) < 0))]
              rw [drop_line 36 (natToDigits d.length) u2]
              rw [i64wrap_small (by omega) (by omega)]
              rw [if_pos (by omega)]
              have hbc : bulkHeaderComplete
                  (36 :: (natToDigits d.length ++ CR :: LF :: u2)) = true := by
                unfold bulkHeaderComplete
                dsimp only
                rw [if_pos rfl, hsline]
                dsimp only
                rw [hpay, hparse]
                simp
              have hh : hdrLen (36 :: (natToDigits d.length ++ CR :: LF :: u2)) =
                  (natToDigits d.length).length + 3 := by
                unfold hdrLen
                rw [hsline]
              rw [hbc, hh]
              simp
  | array es =>
    simp only [WFv, Bool.and_eq_true, decide_eq_true_eq] at hwf
    have hL2 : ∀ e ∈ es, ∀ u, Starts u (enc e) → u ≠ enc e →
        readFrom u = .incomplete (if bulkHeaderComplete u = true then hdrLen u else 0) :=
      fun e he u h1 h2 => readFrom_pre e (WFl_mem hwf.2 e he) u h1 h2
    have hdig : noCRLFb (natToDigits es.length) = true := natToDigits_noCRLF es.length
    have henc : enc (Value.array es) =
        42 :: (natToDigits es.length ++ (CR :: LF :: encList es)) := by simp [enc]
    rw [henc] at hst hne
    rcases starts_cons hst with rfl | ⟨s', rfl, hs'⟩
    · rw [readFrom_nil_buf]
      simp [bulkHeaderComplete]
    · rcases starts_split hs' with h1 | ⟨u, hu, rfl⟩
      · have hns' := noCRLF_starts hdig h1
        exact pre_inc_case 42 s' (by tauto)
          (readSimple_inc_noCRLF (noCRLF_cons (by decide) hns'))
      · rcases starts_cons hu with rfl | ⟨u1, rfl, hu1⟩
        · refine pre_inc_case 42 (natToDigits es.length ++ []) (by tauto) ?_
          rw [List.append_nil]
          exact readSimple_inc_noCRLF (noCRLF_cons (by decide) hdig)
        · rcases starts_cons hu1 with rfl | ⟨u2, rfl, hu2⟩
          · refine pre_inc_case 42 (natToDigits es.length ++ [CR]) (by tauto) ?_
            have h := readSimple_inc_midCR (noCRLF_cons (by decide) hdig (b := 42))
            simpa [List.cons_append] using h
          · by_cases hfull : u2 = encList es
            · subst hfull
              exact absurd rfl hne
            · have hpre42 : noCRLFb (42 :: natToDigits es.length) = true :=
                noCRLF_cons (by decide) hdig
              have hsline := readSimple_line hpre42 u2
              simp only [List.cons_append, List.length_cons] at hsline
              have hpay : linePayload (42 :: (natToDigits es.length ++ CR :: LF :: u2))
                  ((natToDigits es.length).length + 1) = natToDigits es.length :=
                linePayload_app 42 (natToDigits es.length) (CR :: LF :: u2)
              have hparse := parseI64_natToDigits es.length (by unfold maxI64; omega)
              rw [readFrom.eq_def]
              dsimp only
              rw [if_neg (by decide : ¬((42 : Byte) = 43 ∨ (42 : Byte) = 45))]
              rw [if_neg (by decide : ¬((42 : Byte) = 58))]
              rw [if_pos (rfl : (42 : Byte) = 42)]
              rw [hsline]
              dsimp only
              rw [hpay, hparse]
              dsimp only
              rw [if_neg (by omega : ¬((es.length : Int) = -1))]
              rw [if_neg (by omega : ¬((es.length : Int) < 0))]
              rw [drop_line 42 (natToDigits es.length) u2]
              have hbail : readElems ((es.length : Int)).toNat u2 = .bail := by
                rw [Int.toNat_natCast]
                exact readElems_bail es hwf.2 hL2 u2 hu2 hfull
              rw [hbail]
              rw [bulkHC_false_of_head 42 _ (by decide)]
              simp
termination_by sizeOf v
decreasing_by
  have hsz : sizeOf e < sizeOf es := List.sizeOf_lt_of_mem he
  rename_i hv
  subst hv
  simp only [Value.array.sizeOf_spec]
  omega

theorem enc_ne_nil (v : Value) : enc v ≠ [] := by
  cases v <;> simp [enc]

theorem bulkHC_false_of_safe (F : Value) (hsafe : topSafe F = true)
    {u : Buf} (hu : Starts u (enc F)) (hne : u ≠ enc F) :
    bulkHeaderComplete u = false := by
  cases F with
  | bulkString d => simp [topSafe] at hsafe
  | simpleString d =>
    have henc : enc (Value.simpleString d) = 43 :: (d ++ [CR, LF]) := by simp [enc]
    rw [henc] at hu
    rcases starts_cons hu with rfl | ⟨u', rfl, _⟩
    · rfl
    · exact bulkHC_false_of_head 43 u' (by decide)
  | error d =>
    have henc : enc (Value.error d) = 45 :: (d ++ [CR, LF]) := by simp [enc]
    rw [henc] at hu
    rcases starts_cons hu with rfl | ⟨u', rfl, _⟩
    · rfl
    · exact bulkHC_false_of_head 45 u' (by decide)
  | integer n =>
    have henc : enc (Value.integer n) = 58 :: (intToBytes n ++ [CR, LF]) := by simp [enc]
    rw [henc] at hu
    rcases starts_cons hu with rfl | ⟨u', rfl, _⟩
    · rfl
    · exact bulkHC_false_of_head 58 u' (by decide)
  | array es =>
    have henc : enc (Value.array es) =
        42 :: (natToDigits es.length ++ (CR :: LF :: encList es)) := by simp [enc]
    rw [henc] at hu
    rcases starts_cons hu with rfl | ⟨u', rfl, _⟩
    · rfl
    · exact bulkHC_false_of_head 42 u' (by decide)
  | nil =>
    have henc : enc Value.nil = [36, 45, 49, CR, LF] := rfl
    rw [henc] at hu hne
    rcases starts_cons hu with rfl | ⟨s1, rfl, h1⟩
    · rfl
    · rcases starts_cons h1 with rfl | ⟨s2, rfl, h2⟩
      · decide
      · rcases starts_cons h2 with rfl | ⟨s3, rfl, h3⟩
        · decide
        · rcases starts_cons h3 with rfl | ⟨s4, rfl, h4⟩
          · decide
          · rcases starts_cons h4 with rfl | ⟨s5, rfl, h5⟩
            · decide
            · rw [starts_nil_right h5] at hne ⊢
              exact absurd rfl hne

/-- On a proper prefix of a frame that is not a top-level bulk string, the
decoder reports incompleteness and consumes nothing. -/
theorem readFrom_pre_safe (F : Value) (hwf : WFv F = true) (hsafe : topSafe F = true)
    {u : Buf} (hu : Starts u (enc F)) (hne : u ≠ enc F) :
    readFrom u = .incomplete 0 := by
  rw [readFrom_pre F hwf u hu hne, bulkHC_false_of_safe F hsafe hu hne]
  simp

theorem readFrom_enc_nilrest (F : Value) (hwf : WFv F = true) :
    readFrom (enc F) = .value F ((enc F).length) := by
  have h := readFrom_enc F hwf []
  rwa [List.append_nil] at h

theorem feedAcross (F : Value) (hwf : WFv F = true) (hsafe : topSafe F = true)
    (tail : Buf) (acc : List Value) :
    ∀ (w u : Buf), u ++ w = enc F → w ≠ [] →
      feedGo acc u (w ++ tail) = feedGo (acc ++ [F]) [] tail := by
  intro w
  induction w with
  | nil => intro u _ hwne; exact absurd rfl hwne
  | cons b w' ih =>
    intro u hu _
    by_cases hw' : w' = []
    · subst hw'
      simp only [List.singleton_append, List.cons_append, List.nil_append]
      simp only [feedGo]
      have hub : u ++ [b] = enc F := by simpa using hu
      rw [hub, readFrom_enc_nilrest F hwf]
      dsimp only
      rw [List.drop_length]
    · have hu2 : (u ++ [b]) ++ w' = enc F := by simpa [List.append_assoc] using hu
      have hstart : Starts (u ++ [b]) (enc F) := ⟨w', hu2⟩
      have hne2 : u ++ [b] ≠ enc F := by
        intro hEq
        apply hw'
        have hlen : (u ++ [b] ++ w').length = (enc F).length := by rw [hu2]
        have hlen2 : (u ++ [b]).length = (enc F).length := by rw [hEq]
        have hz : w'.length = 0 := by
          simp only [List.length_append, List.length_cons, List.length_nil] at hlen hlen2
          omega
        exact List.eq_nil_of_length_eq_zero hz
      simp only [List.cons_append]
      simp only [feedGo]
      rw [readFrom_pre_safe F hwf hsafe hstart hne2]
      dsimp only
      rw [List.drop_zero]
      exact ih (u ++ [b]) hu2 hw'

theorem feedFrames (frames : List Value)
    (h : ∀ f ∈ frames, WFv f = true ∧ topSafe f = true) :
    ∀ (acc : List Value) (tail : Buf),
      feedGo acc [] (encList frames ++ tail) = feedGo (acc ++ frames) [] tail := by
  induction frames with
  | nil => intro acc tail; simp [encList]
  | cons F fr ih =>
    intro acc tail
    have hF := h F (List.mem_cons_self F fr)
    have hshape : encList (F :: fr) ++ tail = enc F ++ (encList fr ++ tail) := by
      simp [encList]
    rw [hshape]
    have h1 := feedAcross F hF.1 hF.2 (encList fr ++ tail) acc (enc F) []
      (by simp) (enc_ne_nil F)
    simp only [List.nil_append] at h1
    rw [h1]
    rw [ih (fun f hf => h f (List.mem_cons_of_mem F hf)) (acc ++ [F]) tail]
    simp

theorem feedSuffix (F : Value) (hwf : WFv F = true) (hsafe : topSafe F = true)
    (S : Buf) (hS : Starts S (enc F)) (hne : S ≠ enc F) :
    ∀ acc, feedGo acc [] S = .ok (acc, S) := by
  have hSlen : S.length < (enc F).length := by
    have h1 := starts_len hS
    rcases Nat.lt_or_ge S.length (enc F).length with h | h
    · exact h
    · exact absurd (starts_of_len_eq hS (by omega)) hne
  have key : ∀ (w u : Buf), u ++ w = S → ∀ acc, feedGo acc u w = .ok (acc, S) := by
    intro w
    induction w with
    | nil =>
      intro u hu acc
      simp only [List.append_nil] at hu
      subst hu
      rfl
    | cons b w' ih =>
      intro u hu acc
      have hu2 : (u ++ [b]) ++ w' = S := by simpa [List.append_assoc] using hu
      have hstart : Starts (u ++ [b]) (enc F) :=
        starts_trans ⟨w', hu2⟩ hS
      have hne2 : u ++ [b] ≠ enc F := by
        intro hEq
        have : (u ++ [b]).length ≤ S.length := starts_len ⟨w', hu2⟩
        rw [hEq] at this
        omega
      simp only [feedGo]
      rw [readFrom_pre_safe F hwf hsafe hstart hne2]
      dsimp only
      rw [List.drop_zero]
      exact ih (u ++ [b]) hu2 acc
  exact fun acc => key S [] rfl acc

theorem writerHandle_opId (now : Nat) (cmd : Command) (s : WriterState) :
    (writerHandle now cmd s).state.operation_id = (s.operation_id + 1) % 2 ^ 64 := by
  cases cmd <;> unfold writerHandle <;> dsimp only <;>
    first
      | rfl
      | (split <;> rfl)

theorem runW_opId (ops : List (Nat × Command)) :
    ∀ s : WriterState, s.operation_id < 2 ^ 64 →
      (ops.foldl stepW s).operation_id = (s.operation_id + ops.length) % 2 ^ 64 := by
  induction ops with
  | nil =>
    intro s hs
    simp only [List.foldl_nil, List.length_nil, Nat.add_zero]
    omega
  | cons p ops' ih =>
    intro s hs
    simp only [List.foldl_cons, List.length_cons]
    have h1 : (stepW s p).operation_id = (s.operation_id + 1) % 2 ^ 64 :=
      writerHandle_opId p.1 p.2 s
    rw [ih (stepW s p) (by rw [h1]; exact Nat.mod_lt _ (by norm_num)), h1,
      Nat.mod_add_mod]
    congr 1
    omega

theorem delLoop_fst (rv : Store) (keys : List Buf) :
    (delLoop rv keys).1 = keys.countP (fun k => storeContains rv k) := by
  have key : ∀ (ks : List Buf) (init : Nat × List Buf),
      (ks.foldl
        (fun acc k => if storeContains rv k then (acc.1 + 1, acc.2 ++ [k]) else acc)
        init).1 = init.1 + ks.countP (fun k => storeContains rv k) := by
    intro ks
    induction ks with
    | nil => intro init; simp
    | cons k ks' ih =>
      intro init
      simp only [List.foldl_cons, List.countP_cons]
      by_cases h : storeContains rv k
      · rw [if_pos h]
        rw [ih]
        simp [h]
        omega
      · rw [if_neg h]
        rw [ih]
        simp [h]
  have h := key keys (0, [])
  simpa [delLoop] using h

theorem delLoop_snd (rv : Store) (keys : List Buf) :
    (delLoop rv keys).2 = keys.filter (fun k => storeContains rv k) := by
  have key : ∀ (ks : List Buf) (init : Nat × List Buf),
      (ks.foldl
        (fun acc k => if storeContains rv k then (acc.1 + 1, acc.2 ++ [k]) else acc)
        init).2 = init.2 ++ ks.filter (fun k => storeContains rv k) := by
    intro ks
    induction ks with
    | nil => intro init; simp
    | cons k ks' ih =>
      intro init
      simp only [List.foldl_cons, List.filter_cons]
      by_cases h : storeContains rv k
      · rw [if_pos h]
        rw [ih]
        simp [h]
      · rw [if_neg h]
        rw [ih]
        simp [h]
  have h := key keys (0, [])
  simpa [delLoop] using h

theorem storeGet_remove (st : Store) (k0 k : Buf) :
    storeGet (storeRemove st k0) k = if k = k0 then none else storeGet st k := by
  induction st with
  | nil => simp [storeRemove, storeGet]
  | cons p rest ih =>
    obtain ⟨k', it⟩ := p
    simp only [storeRemove, storeGet]
    by_cases h1 : k' = k0
    · subst h1
      rw [if_pos rfl, ih]
      by_cases h2 : k = k'
      · simp [h2, storeGet]
      · have h2' : ¬(k' = k) := fun h => h2 h.symm
        simp [storeGet, h2, h2']
    · rw [if_neg h1]
      simp only [storeGet]
      by_cases h2 : k' = k
      · subst h2
        simp [h1]
      · simp [h2, ih]

theorem storeGet_foldl_remove (es : List Buf) :
    ∀ (st : Store) (k : Buf),
      storeGet (es.foldl storeRemove st) k = if k ∈ es then none else storeGet st k := by
  induction es with
  | nil => intro st k; simp
  | cons e es' ih =>
    intro st k
    simp only [List.foldl_cons]
    rw [ih (storeRemove st e) k, storeGet_remove]
    by_cases h1 : k ∈ es'
    · simp [h1]
    · by_cases h2 : k = e
      · subst h2; simp [h1]
      · simp [h1, h2]

theorem storeGet_none_of_not_contains {st : Store} {k : Buf}
    (h : storeContains st k = false) : storeGet st k = none := by
  unfold storeContains at h
  cases hg : storeGet st k with
  | none => rfl
  | some it => rw [hg] at h; simp at h

theorem storeGet_setMetaAll (st : Store) (f : Metadata → Metadata) (k : Buf) :
    storeGet (setMetaAll st f) k =
      (storeGet st k).map (fun it => ⟨it.value, f it.meta⟩) := by
  induction st with
  | nil => rfl
  | cons p rest ih =>
    obtain ⟨k', it⟩ := p
    by_cases h : k' = k
    · subst h
      simp [setMetaAll, storeGet]
    · simp [setMetaAll, storeGet, h] at ih ⊢
      simpa [setMetaAll] using ih

theorem collectBulks_map (args : List Buf) :
    collectBulks (args.map Value.bulkString) = some args := by
  induction args with
  | nil => rfl
  | cons a rest ih => simp [collectBulks, ih]

theorem mapCommand_eq_spec (name : Buf) (tail : List Buf) :
    mapCommand name tail = commandSpecAmended name tail := by
  unfold mapCommand commandSpecAmended matchName
  rw [show (bs ("ping")).map asciiUpper = bs ("PING") from by decide]
  rw [show (bs ("get")).map asciiUpper = bs ("GET") from by decide]
  rw [show (bs ("set")).map asciiUpper = bs ("SET") from by decide]
  rw [show (bs ("del")).map asciiUpper = bs ("DEL") from by decide]
  rw [show (bs ("exists")).map asciiUpper = bs ("EXISTS") from by decide]
  simp only [Bool.or_eq_true, decide_eq_true_eq]

example : parseI64 (bs ("-12")) = some (-12) := by decide

example : enc (.array [.bulkString (bs ("PING"))]) = bs ("*1\r\n$4\r\nPING\r\n") := rfl

example : encodeTo .pong [] = .ok (bs ("+PONG\r\n")) := rfl

/-- Claim C1 (amended): on every syntactically valid but incomplete prefix of
a RESP2 value, `read_from` returns `None` without error; the buffer is left
exactly as it was at entry unless the prefix is a top-level bulk string whose
`$<len>\r\n` header is complete, in which case the header has been consumed
(`hdrLen` bytes are dropped).  `decode_from` passes incompleteness through
unchanged.  Consequently, feeding a concatenation of encoded frames plus a
partial suffix one byte at a time yields exactly the frames in order followed
by `None` with the suffix left in the buffer, provided no frame (and the
suffix's frame) is a top-level bulk string. -/
theorem claim1_incomplete_prefix :
    (∀ (v : Value) (s : Buf), WFv v = true → Starts s (enc v) → s ≠ enc v →
      readFrom s = .incomplete (if bulkHeaderComplete s = true then hdrLen s else 0))
    ∧ (∀ (s : Buf) (k : Nat), readFrom s = .incomplete k → decodeFrom s = .incomplete k)
    ∧ (∀ (frames : List Value) (S : Buf) (F : Value),
        (∀ f ∈ frames, WFv f = true ∧ topSafe f = true) →
        WFv F = true → topSafe F = true → Starts S (enc F) → S ≠ enc F →
        feed (encList frames ++ S) = .ok (frames, S)) := by
  refine ⟨fun v s hwf hst hne => readFrom_pre v hwf s hst hne, ?_, ?_⟩
  · intro s k h
    unfold decodeFrom
    rw [h]
  · intro frames S F hf hwfF hsafeF hS hne
    unfold feed
    rw [feedFrames frames hf [] S]
    have h := feedSuffix F hwfF hsafeF S hS hne frames
    simpa using h

/-- Witness for C1: a concrete incomplete integer prefix is reported
incomplete with the buffer intact, and byte-by-byte feeding of an encoded
integer frame plus the partial suffix `"+"` yields the frame and the
suffix. -/
theorem claim1_witness :
    (WFv (Value.integer 34) = true ∧ Starts [58, 51] (enc (Value.integer 34)) ∧
      readFrom [58, 51] =
        .incomplete (if bulkHeaderComplete [58, 51] = true then hdrLen [58, 51] else 0))
    ∧ feed (encList [Value.integer 34] ++ [43]) = .ok ([Value.integer 34], [43]) := by
  constructor
  · refine ⟨by decide, ⟨[52, CR, LF], by decide⟩, ?_⟩
    exact claim1_incomplete_prefix.1 (Value.integer 34) [58, 51] (by decide)
      ⟨[52, CR, LF], by decide⟩ (by decide)
  · exact claim1_incomplete_prefix.2.2 [Value.integer 34] [43]
      (Value.simpleString (bs ("A"))) (by decide) (by decide) (by decide)
      ⟨[65, CR, LF], by decide⟩ (by decide)

/-- Counterexample to C1 as stated: `"$3\r\nab"` is a syntactically valid
incomplete prefix of the bulk string `"$3\r\nabc\r\n"`, and `read_from`
returns `None` but drops the 4 header bytes, leaving `"ab"` instead of the
original buffer. -/
theorem claim1_counterexample :
    Starts (bs ("$3\r\nab")) (enc (Value.bulkString (bs ("abc"))))
    ∧ readFrom (bs ("$3\r\nab")) = .incomplete 4
    ∧ (bs ("$3\r\nab")).drop 4 = bs ("ab")
    ∧ bs ("ab") ≠ bs ("$3\r\nab") := by
  refine ⟨⟨bs ("c\r\n"), by decide⟩, ?_, by decide, by decide⟩
  have h := readFrom_pre (Value.bulkString (bs ("abc"))) (by decide) (bs ("$3\r\nab"))
    ⟨bs ("c\r\n"), by decide⟩ (by decide)
  rw [h]
  norm_num [show bulkHeaderComplete (bs ("$3\r\nab")) = true from by decide,
    show hdrLen (bs ("$3\r\nab")) = 4 from by decide]

/-- Claim C2 (amended): `GET` at the `Reader` consults only the stored value:
an absent key yields `Nil`, a `String(data)` yields `Bulk(data)` regardless of
any expiration metadata or clock reading (metadata is never consulted, as the
second conjunct states), and any other stored variant yields
`Error(WrongType)`. -/
theorem claim2_get_amended :
    (∀ (snapshot : Store) (key : Buf),
      readerHandle (some snapshot) (.get key) = .ok (.ok (getAmendedSpec snapshot key)))
    ∧ (∀ (snapshot : Store) (key : Buf) (f : Metadata → Metadata),
      getAmendedSpec (setMetaAll snapshot f) key = getAmendedSpec snapshot key) := by
  constructor
  · intro snapshot key
    cases hg : storeGet snapshot key with
    | none => simp [readerHandle, getAmendedSpec, hg]
    | some it =>
      obtain ⟨val, meta⟩ := it
      cases val <;> simp [readerHandle, getAmendedSpec, hg]
  · intro snapshot key f
    unfold getAmendedSpec
    rw [storeGet_setMetaAll]
    cases storeGet snapshot key with
    | none => rfl
    | some it =>
      obtain ⟨val, meta⟩ := it
      cases val <;> rfl

/-- Counterexample to C2 as stated: a key stored as a `String` with
expiration instant 5 is still answered with `Bulk`, not `Nil`, at clock
reading 10 — the reader performs no expiration check. -/
theorem claim2_counterexample :
    readerHandle (some [(bs ("k"), ⟨.string (bs ("v")), ⟨3, some 5⟩⟩)]) (.get (bs ("k"))) =
      .ok (.ok (.bulk (bs ("v"))))
    ∧ (5 : Nat) ≤ 10
    ∧ Response.bulk (bs ("v")) ≠ Response.nil := by
  exact ⟨rfl, by omega, by decide⟩

/-- Claim C3 (amended): decoding a well-formed RESP2 array of bulk strings
maps the first element through the actual table: `PING` (0 or 1 args),
`GET key`, `SET key value`, `DEL`/`EXISTS` (at least one key), each matched
only as its exact all-lowercase or all-uppercase ASCII spelling; any other
name (including `EXPIRE`, `PERSIST`, `FLUSHALL`, `FLUSHDB` and mixed-case
spellings) fails with `UnrecognizedCommand`; wrong arity fails with
`UnexpectedNumberOfArguments`. -/
theorem claim3_mapping_amended (name : Buf) (tail : List Buf)
    (hwf : WFv (Value.array ((name :: tail).map Value.bulkString)) = true) :
    decodeFrom (enc (Value.array ((name :: tail).map Value.bulkString))) =
      (match commandSpecAmended name tail with
       | .ok c => .command c ((enc (Value.array ((name :: tail).map Value.bulkString))).length)
       | .error e =>
         .error e ((enc (Value.array ((name :: tail).map Value.bulkString))).length)) := by
  unfold decodeFrom
  rw [readFrom_enc_nilrest _ hwf]
  dsimp only
  rw [collectBulks_map (name :: tail)]
  dsimp only
  rw [mapCommand_eq_spec]
  all_goals cases commandSpecAmended name tail <;> rfl

/-- Witness for C3: the single-element array `["PING"]` decodes to
`Ping(None)`. -/
theorem claim3_witness :
    WFv (Value.array ((bs ("PING") :: []).map Value.bulkString)) = true
    ∧ decodeFrom (enc (Value.array ((bs ("PING") :: []).map Value.bulkString))) =
        (match commandSpecAmended (bs ("PING")) [] with
         | .ok c =>
           .command c ((enc (Value.array ((bs ("PING") :: []).map Value.bulkString))).length)
         | .error e =>
           .error e ((enc (Value.array ((bs ("PING") :: []).map Value.bulkString))).length)) :=
  ⟨by decide, claim3_mapping_amended (bs ("PING")) [] (by decide)⟩

/-- Counterexample to C3 as stated: the mixed-case `["Ping"]` (which
case-insensitive matching would map to `Ping(None)`) and the supported-per-
claim `["EXPIRE", "k", "10"]` both fail with `UnrecognizedCommand`. -/
theorem claim3_counterexample :
    decodeFrom (bs ("*1\r\n$4\r\nPing\r\n")) = .error .unrecognizedCommand 14
    ∧ decodeFrom (bs ("*3\r\n$6\r\nEXPIRE\r\n$1\r\nk\r\n$2\r\n10\r\n")) =
        .error .unrecognizedCommand 31 := by
  constructor
  · rw [show bs ("*1\r\n$4\r\nPing\r\n") =
      enc (Value.array [Value.bulkString (bs ("Ping"))]) from by decide]
    unfold decodeFrom
    rw [readFrom_enc_nilrest _ (by decide)]
    rfl
  · rw [show bs ("*3\r\n$6\r\nEXPIRE\r\n$1\r\nk\r\n$2\r\n10\r\n") =
      enc (Value.array [Value.bulkString (bs ("EXPIRE")), Value.bulkString (bs ("k")),
        Value.bulkString (bs ("10"))]) from by decide]
    unfold decodeFrom
    rw [readFrom_enc_nilrest _ (by decide)]
    rfl

/-- Claim C4 is a code bug: the code panics on several inputs the claim
covers.  `decode_from` indexes `elems[0]` and panics on the empty top-level
array `*0\r\n`; `read_from` calls `Vec::with_capacity(len as usize)` and
panics (capacity overflow) on the negative array length `*-2\r\n`; the
`Reader` hits `unreachable!()` on an `EXISTS` operation and
`.expect(...)` on any operation delivered before its subscription
completes. -/
theorem claim4_panics :
    decodeFrom (bs ("*0\r\n")) = .panics
    ∧ readFrom (bs ("*-2\r\n")) = .panics
    ∧ readerHandle (some []) (.existsKeys [bs ("a")]) = .panics
    ∧ readerHandle none (.ping none) = .panics := by
  refine ⟨?_, ?_, rfl, rfl⟩
  · rw [show bs ("*0\r\n") = enc (Value.array []) from by decide]
    unfold decodeFrom
    rw [readFrom_enc_nilrest _ (by decide)]
    rfl
  · rw [show bs ("*-2\r\n") = [42, 45, 50, 13, 10] from rfl]
    rw [readFrom.eq_def]
    dsimp only
    rw [if_neg (by decide : ¬((42 : Byte) = 43 ∨ (42 : Byte) = 45))]
    rw [if_neg (by decide : ¬((42 : Byte) = 58))]
    rw [if_pos (rfl : (42 : Byte) = 42)]
    rw [show readSimple [42, 45, 50, 13, 10] = SimpleOut.line 3 from by decide]
    dsimp only
    rw [show parseI64 (linePayload [42, 45, 50, 13, 10] 3) = some (-2) from by decide]
    dsimp only
    rw [if_neg (by decide : ¬((-2 : Int) = -1))]
    rw [if_pos (by decide : (-2 : Int) < 0)]

/-- Claim C5 (amended): for `DEL(keys)` at the `Writer`, presence is
evaluated against the store as of message entry for every listed key (the
`evmap` write handle reads the last published map and removals are buffered
until the final `refresh()`), so the response counts every occurrence of a
present key — duplicates count once per occurrence; afterwards every listed
key is absent and a snapshot is published. -/
theorem claim5_del_amended (s : WriterState) (now : Nat) (keys : List Buf) :
    (writerHandle now (.del keys) s).result =
      .ok (.integer (i64ofNat (keys.countP (fun k => storeContains s.store k))))
    ∧ (∀ k, storeGet (writerHandle now (.del keys) s).state.store k =
        if k ∈ keys then none else storeGet s.store k)
    ∧ (writerHandle now (.del keys) s).refreshed = true := by
  refine ⟨?_, ?_, rfl⟩
  · show Except.ok (Response.integer (i64ofNat (delLoop s.store keys).1)) = _
    rw [delLoop_fst]
  · intro k
    show storeGet ((delLoop s.store keys).2.foldl storeRemove s.store) k = _
    rw [delLoop_snd, storeGet_foldl_remove]
    by_cases hk : k ∈ keys
    · by_cases hc : storeContains s.store k
      · rw [if_pos (List.mem_filter.mpr ⟨hk, hc⟩), if_pos hk]
      · rw [if_neg (fun hmem => hc (List.mem_filter.mp hmem).2), if_pos hk]
        exact storeGet_none_of_not_contains (by simpa using hc)
    · rw [if_neg (fun hmem => hk (List.mem_filter.mp hmem).1), if_neg hk]

/-- Counterexample to C5 as stated: `DEL a a` on a store containing only `a`
answers `Integer(2)` (both occurrences see the entry snapshot), while
processing the keys in order with immediate removal — as the claim describes
— counts 1. -/
theorem claim5_counterexample :
    (writerHandle 0 (.del [bs ("a"), bs ("a")])
      ⟨[(bs ("a"), ⟨.string (bs ("x")), ⟨1, none⟩⟩)], 5⟩).result = .ok (.integer 2)
    ∧ (delClaimLoop [(bs ("a"), ⟨.string (bs ("x")), ⟨1, none⟩⟩)] [bs ("a"), bs ("a")]).2 = 1
    ∧ (2 : Int) ≠ 1 := by
  exact ⟨rfl, rfl, by decide⟩

/-- Claim C6: a scheduled expiration callback for `(key, id)` is a no-op —
the state is returned entirely unchanged and no snapshot is published — when
the item currently at `key` does not carry `id` (or the key is absent); when
the item still carries exactly `id`, the key is removed and a refresh is
published. -/
theorem claim6_ttl_identity (s : WriterState) (key : Buf) (opid : Nat) :
    ((∀ it, storeGet s.store key = some it → it.meta.operation_id ≠ opid) →
      expireCallback key opid s = (s, false))
    ∧ (∀ it, storeGet s.store key = some it → it.meta.operation_id = opid →
      expireCallback key opid s = ({ s with store := storeRemove s.store key }, true)) := by
  constructor
  · intro h
    unfold expireCallback
    cases hg : storeGet s.store key with
    | none => rfl
    | some it =>
      dsimp only
      rw [if_neg (h it hg)]
  · intro it hg heq
    unfold expireCallback
    rw [hg]
    dsimp only
    rw [if_pos heq]

/-- Witness for C6: a callback carrying operation id 9 fires while the item
at the key carries id 7 — the state is unchanged and nothing is published. -/
theorem claim6_witness :
    expireCallback (bs ("k")) 9 ⟨[(bs ("k"), ⟨.string (bs ("v")), ⟨7, some 5⟩⟩)], 42⟩ =
      (⟨[(bs ("k"), ⟨.string (bs ("v")), ⟨7, some 5⟩⟩)], 42⟩, false) :=
  (claim6_ttl_identity ⟨[(bs ("k"), ⟨.string (bs ("v")), ⟨7, some 5⟩⟩)], 42⟩ (bs ("k")) 9).1
    (fun it hit => by
      rw [show storeGet [(bs ("k"), (⟨.string (bs ("v")), ⟨7, some 5⟩⟩ : Item))] (bs ("k")) =
        some ⟨.string (bs ("v")), ⟨7, some 5⟩⟩ from rfl] at hit
      injection hit with h3
      subst h3
      decide)

/-- Claim C7 (amended): the `u64` counter wraps modulo `2 ^ 64` (release
build), so `operation_id` is strictly increasing across the first
`2 ^ 64 − 1` operations handled since the Writer's construction: for
positions `0 < i < j ≤ length` with `j < 2 ^ 64`, the id assigned to the
`i`-th handled message is strictly below the id assigned to the `j`-th. -/
theorem claim7_monotonic_amended (ops : List (Nat × Command)) (i j : Nat)
    (hi : 0 < i) (hij : i < j) (hlen : j ≤ ops.length) (hbound : j < 2 ^ 64) :
    opIdAfter (ops.take i) < opIdAfter (ops.take j) := by
  have key : ∀ m : Nat, m ≤ ops.length → opIdAfter (ops.take m) = m % 2 ^ 64 := by
    intro m hm
    unfold opIdAfter runW
    rw [runW_opId _ _ (by norm_num)]
    simp only [List.length_take]
    rw [Nat.min_eq_left hm]
    simp
  rw [key i (by omega), key j hlen]
  rw [Nat.mod_eq_of_lt (by omega), Nat.mod_eq_of_lt hbound]
  exact hij

/-- Witness for C7: in a two-message run, the first mutation is assigned id 1
and the second id 2. -/
theorem claim7_witness :
    opIdAfter (([((0 : Nat), Command.del []), (0, Command.del [])]).take 1) <
      opIdAfter (([((0 : Nat), Command.del []), (0, Command.del [])]).take 2) :=
  claim7_monotonic_amended [((0 : Nat), Command.del []), (0, Command.del [])] 1 2
    (by omega) (by omega) (by decide) (by norm_num)

/-- The run of `2 ^ 64` mutations used by the C7 counterexample. -/
def c7run : List (Nat × Command) := List.replicate (2 ^ 64) (0, Command.del [])

/-- Counterexample to C7 as stated: after `2 ^ 64` mutations the wrapping
counter assigns id 0, so the first mutation (id 1) is earlier than the
`2 ^ 64`-th (id 0) yet its id is not smaller. -/
theorem claim7_counterexample :
    opIdAfter (c7run.take 1) = 1
    ∧ opIdAfter (c7run.take (2 ^ 64)) = 0
    ∧ (0 : Nat) < 1 ∧ 1 < 2 ^ 64 ∧ 2 ^ 64 ≤ c7run.length
    ∧ ¬(opIdAfter (c7run.take 1) < opIdAfter (c7run.take (2 ^ 64))) := by
  have hrep : ∀ n : Nat, opIdAfter (List.replicate n ((0 : Nat), Command.del [])) =
      n % 2 ^ 64 := by
    intro n
    unfold opIdAfter runW
    rw [runW_opId _ _ (by norm_num)]
    simp
  have ht1 : c7run.take 1 = List.replicate 1 ((0 : Nat), Command.del []) := by
    unfold c7run
    rw [List.take_replicate]
    congr 1
  have ht2 : c7run.take (2 ^ 64) = List.replicate (2 ^ 64) ((0 : Nat), Command.del []) := by
    unfold c7run
    rw [List.take_replicate]
    congr 1
  have h1 : opIdAfter (c7run.take 1) = 1 := by
    rw [ht1, hrep]
    exact Nat.mod_eq_of_lt (by norm_num)
  have h2 : opIdAfter (c7run.take (2 ^ 64)) = 0 := by
    rw [ht2, hrep, Nat.mod_self]
  refine ⟨h1, h2, by omega, by norm_num, ?_, ?_⟩
  · unfold c7run
    rw [List.length_replicate]
  · rw [h1, h2]
    omega

/-- Claim C8: for every value of the RESP2 grammar (CRLF-free simple-string
and error payloads, `i64` integers, representable lengths), encoding and then
decoding yields exactly the value back, consuming the entire encoded form. -/
theorem claim8_roundtrip (v : Value) (hwf : WFv v = true) :
    writeTo v [] = .ok (enc v)
    ∧ readFrom (enc v) = .value v ((enc v).length)
    ∧ (enc v).drop ((enc v).length) = [] := by
  refine ⟨?_, readFrom_enc_nilrest v hwf, List.drop_length _⟩
  have h := writeTo_eq v []
  simpa using h

/-- Witness for C8: round trip of the array `["hi", nil, :(-7), +OK]`. -/
theorem claim8_witness :
    WFv (Value.array [Value.bulkString (bs ("hi")), Value.nil, Value.integer (-7),
      Value.simpleString (bs ("OK"))]) = true
    ∧ (writeTo (Value.array [Value.bulkString (bs ("hi")), Value.nil, Value.integer (-7),
        Value.simpleString (bs ("OK"))]) [] =
        .ok (enc (Value.array [Value.bulkString (bs ("hi")), Value.nil, Value.integer (-7),
          Value.simpleString (bs ("OK"))]))
      ∧ readFrom (enc (Value.array [Value.bulkString (bs ("hi")), Value.nil,
          Value.integer (-7), Value.simpleString (bs ("OK"))])) =
        .value (Value.array [Value.bulkString (bs ("hi")), Value.nil, Value.integer (-7),
          Value.simpleString (bs ("OK"))])
          ((enc (Value.array [Value.bulkString (bs ("hi")), Value.nil, Value.integer (-7),
            Value.simpleString (bs ("OK"))])).length)
      ∧ (enc (Value.array [Value.bulkString (bs ("hi")), Value.nil, Value.integer (-7),
          Value.simpleString (bs ("OK"))])).drop
          ((enc (Value.array [Value.bulkString (bs ("hi")), Value.nil, Value.integer (-7),
            Value.simpleString (bs ("OK"))])).length) = []) :=
  ⟨by decide, claim8_roundtrip _ (by decide)⟩

/-- Claim C9 is a code bug: an operation delivered to a `Reader` whose
subscription has not completed (no store handle) panics via
`.expect("Reader not yet ready to respond")` instead of failing with
`NoReadAccess` (which only the unused
`OperationProcessor::process_operation` of `src/storage.rs` would return). -/
theorem claim9_reader_prestore : readerHandle none (.get (bs ("key"))) = .panics := rfl

/-- Claim C10: encoding a response never fails — `encode_to` always returns
`Ok` and appends exactly the byte encoding of one wire value (no path
constructs an `EncodeError`); for well-formed responses the appended bytes
decode back as exactly that one value. -/
theorem claim10_encode_total :
    (∀ (r : Response) (buf : Buf), encodeTo r buf = .ok (buf ++ enc (responseValue r)))
    ∧ (∀ r : Response, respWF r = true →
        readFrom (enc (responseValue r)) =
          .value (responseValue r) ((enc (responseValue r)).length)) := by
  constructor
  · intro r buf
    unfold encodeTo
    rw [writeTo_eq]
  · intro r hr
    apply readFrom_enc_nilrest
    cases r with
    | integer n => simpa [respWF, WFv, responseValue] using hr
    | bulk d => simpa [respWF, WFv, responseValue] using hr
    | ok => decide
    | pong => decide
    | nil => decide
    | error e => cases e; decide

/-- Witness for C10: encoding `Integer(5)` onto an empty buffer. -/
theorem claim10_witness :
    respWF (Response.integer 5) = true
    ∧ encodeTo (Response.integer 5) [] = .ok ([] ++ enc (responseValue (Response.integer 5)))
    ∧ readFrom (enc (responseValue (Response.integer 5))) =
        .value (responseValue (Response.integer 5))
          ((enc (responseValue (Response.integer 5))).length) :=
  ⟨by decide, claim10_encode_total.1 (Response.integer 5) [],
    claim10_encode_total.2 (Response.integer 5) (by decide)⟩
